import Mathlib

/-!
# Verification of the crossword CSP solver (`src/generate.py`)

Shallow embedding of the class `CrosswordCreator` from `src/generate.py`.
Python strings are `List Char`, Python sets/dicts of the solver are lists
resp. association lists / functions, and the two unbounded loops of the
source (`ac3`'s while-loop and `backtrack`'s recursion) are embedded with an
explicit fuel argument together with proofs that the fuel chosen by the
wrappers is always sufficient, so every definition is executable.

The puzzle geometry comes from `crossword.py`, which is not part of the
sources; the types `Variable`, `Geometry` and the functions derived from
them are modelled from the spec (§2, §3: a slot is identified by start
position, length and direction; the geometry supplies the slot set, the
pairwise overlap function and the neighbor function).
-/

/-- A Python string, as a list of characters. -/
abbrev Word := List Char

/-- Python `w[i]` for a non-negative index, totalized: out-of-range access
(which raises `IndexError` in Python) returns a default character.  Theorems
whose meaning depends on character access carry in-range hypotheses so that
they only speak about inputs on which the source does not raise. -/
def charAt (w : Word) (i : Nat) : Char := w.getD i ' '

/-- Modelled from the spec: a slot direction (§3), one of two values. -/
inductive Direction
  | across
  | down
deriving DecidableEq, Repr

/-- Modelled from the spec: a Slot / `Variable` of `crossword.py` (§3):
immutable identity given by starting row, starting column, length and
direction; equality is field-wise. -/
structure Variable where
  i : Nat
  j : Nat
  length : Nat
  direction : Direction
deriving DecidableEq, Repr

/-- Modelled from the spec: the Geometry Provider (§2, §3) — the slot set and
the overlap function mapping an ordered pair of slots to either no overlap or
a pair of offsets into the two slots' words. -/
structure Geometry where
  vars : List Variable
  overlaps : Variable → Variable → Option (Nat × Nat)

/-- Modelled from the spec: `crossword.neighbors(var)` (§2, §3) — the set of
other slots with which `var` has a defined overlap. -/
def neighbors (g : Geometry) (v : Variable) : List Variable :=
  g.vars.filter (fun u => u != v && (g.overlaps v u).isSome)

/-- The Domain Store `self.domains`: per-slot candidate words. -/
abbrev Domains := Variable → List Word

/-- A (partial) assignment: the Python dict mapping variables to words.  The
solver only ever extends an assignment with a key that is not yet present, so
the association list has no duplicate keys on every reachable state. -/
abbrev Assignment := List (Variable × Word)

/-- `var in assignment` (Python dict key membership). -/
def assigned (asg : Assignment) (v : Variable) : Bool :=
  asg.any (fun p => p.1 == v)

/-- `enforce_node_consistency` (generate.py lines 97-118): for each variable,
collect the words of its domain whose length differs from the variable's
length and remove them.  The Python method mutates `self.domains` and returns
`None`; the embedding returns the updated store. -/
def enforce_node_consistency (g : Geometry) (d : Domains) : Domains :=
  g.vars.foldl
    (fun acc var =>
      let to_remove := (acc var).filter (fun w => w.length != var.length)
      fun v => if v = var then (acc v).filter (fun w => !to_remove.contains w) else acc v)
    d

/-- The counter `compatible` of `revise` (generate.py lines 149-157): the
number of words `q` in `domain(y)` that differ from `p` and agree with `p`
at the overlap offsets `op`. -/
def compatibleCount (d : Domains) (y : Variable) (op : Nat × Nat) (p : Word) : Nat :=
  (d y).countP (fun q => p != q && (charAt p op.1 == charAt q op.2))

/-- `revise` (generate.py lines 120-171): if `x` and `y` have no overlap,
return `False` with the store unchanged; otherwise remove from `domain(x)`
every word `p` whose `compatible` count is zero, and return whether anything
was removed (`revised` is set exactly when the removal list is non-empty);
removal of a list of words from the set `self.domains[x]` is a filter. -/
def revise (g : Geometry) (d : Domains) (x y : Variable) : Bool × Domains :=
  match g.overlaps x y with
  | none => (false, d)
  | some op =>
    let to_remove := (d x).filter (fun p => compatibleCount d y op p == 0)
    if to_remove.isEmpty then (false, d)
    else (true, fun v => if v = x then (d v).filter (fun p => !to_remove.contains p) else d v)

/-- `arcs.add(a)` on the Python set of pending arcs: no change when the arc
is already present. -/
def addArc (arcs : List (Variable × Variable)) (a : Variable × Variable) :
    List (Variable × Variable) :=
  if a ∈ arcs then arcs else a :: arcs

/-- The re-enqueueing step of `ac3` (generate.py lines 207-214): after a
revision of `x` against `y`, for every neighbor `n` of `x` other than `y`
the source adds BOTH arcs `(n, x)` and `(x, n)` to the working set. -/
def enqueueNeighbors (g : Geometry) (x y : Variable)
    (rest : List (Variable × Variable)) : List (Variable × Variable) :=
  (neighbors g x).foldl
    (fun acc n => if n = y then acc else addArc (addArc acc (n, x)) (x, n)) rest

/-- The default initial working set of `ac3` (generate.py lines 187-193):
all ordered pairs of distinct variables. -/
def allArcs (g : Geometry) : List (Variable × Variable) :=
  (g.vars.map (fun x => (g.vars.filter (fun y => y != x)).map (fun y => (x, y)))).flatten

/-- The while-loop of `ac3` (generate.py lines 196-223), with fuel.  One fuel
unit is spent per loop iteration; `none` means the fuel ran out (which, by
`ac3_fuel_isSome_of_measure_lt`, never happens for the fuel chosen by `ac3`).
When the working set is empty the loop falls through to the final check that
every variable's domain is non-empty (lines 216-223).  The Python `set.pop`
removes an unspecified element; the embedding pops the head of the list. -/
def ac3_fuel (g : Geometry) : Nat → Domains → List (Variable × Variable) →
    Option (Bool × Domains)
  | 0, _, _ => none
  | _fuel + 1, d, [] => some (g.vars.all (fun v => !(d v).isEmpty), d)
  | fuel + 1, d, (x, y) :: rest =>
    match revise g d x y with
    | (false, _) => ac3_fuel g fuel d rest
    | (true, d') =>
      if (d' x).isEmpty then some (false, d')
      else ac3_fuel g fuel d' (enqueueNeighbors g x y rest)

/-- The set of variables whose domains can still shrink during `ac3`: the
geometry's variables together with the first components of pending arcs. -/
def vSet (g : Geometry) (arcs : List (Variable × Variable)) : Finset Variable :=
  g.vars.toFinset ∪ (arcs.map Prod.fst).toFinset

/-- Total size of the domains of a finite set of variables. -/
def totalSize (d : Domains) (s : Finset Variable) : Nat :=
  s.sum (fun v => (d v).length)

/-- Termination measure for the `ac3` while-loop: every iteration strictly
decreases it. -/
def ac3Measure (g : Geometry) (d : Domains) (arcs : List (Variable × Variable)) : Nat :=
  arcs.length + (2 * g.vars.length + 1) * totalSize d (vSet g arcs)

/-- `ac3` (generate.py lines 173-223).  The wrapper supplies fuel exceeding
`ac3Measure`, which is proved sufficient, so the `getD` default is never
used; it returns the boolean result together with the mutated store. -/
def ac3 (g : Geometry) (d : Domains) (initialArcs : Option (List (Variable × Variable))) :
    Bool × Domains :=
  let arcs := initialArcs.getD (allArcs g)
  (ac3_fuel g (ac3Measure g d arcs + 1) d arcs).getD (false, d)

/-- `assignment_complete` (generate.py lines 225-236): an assignment is
complete iff it has as many entries as there are variables. -/
def assignment_complete (g : Geometry) (asg : Assignment) : Bool :=
  g.vars.length == asg.length

/-- The body of the double loop of `consistent` (generate.py lines 247-261)
for one ordered pair of entries: pairs with equal variables are skipped;
otherwise the words must be distinct, the first word must have its slot's
length, and if an overlap is defined the words must agree there.  Python's
`if self.crossword.overlaps[var0, var1]:` tests truthiness; a tuple is always
truthy and `None` is falsy, so it is exactly the `Option` match. -/
def consistentPair (g : Geometry) (p0 p1 : Variable × Word) : Bool :=
  if p0.1 = p1.1 then true
  else if p0.2 == p1.2 then false
  else if p0.2.length != p0.1.length then false
  else
    match g.overlaps p0.1 p1.1 with
    | none => true
    | some op => charAt p0.2 op.1 == charAt p1.2 op.2

/-- `consistent` (generate.py lines 238-263): all ordered pairs of entries of
the assignment pass `consistentPair`. -/
def consistent (g : Geometry) (asg : Assignment) : Bool :=
  asg.all (fun p0 => asg.all (fun p1 => consistentPair g p0 p1))

/-- Python runtime errors that `order_domain_values` can raise. -/
inductive PyError
  | nameError
  | runtimeError
  | indexError
deriving DecidableEq, Repr

/-- `order_domain_values` (generate.py lines 265-307).  The loop at lines
277-280 removes elements from the set `neighbors` while iterating over that
same set, which raises `RuntimeError` as soon as a removal occurs, i.e. as
soon as some neighbor is assigned.  Otherwise the scoring loop runs; it
indexes candidate words at the overlap offsets (line 294), raising
`IndexError` when an offset is out of range.  Otherwise execution reaches
line 301, `sortList = sorted(unsorted, key=itemgetter(1))`, where the name
`unsorted` is undefined (the list built at lines 282-298 is called
`unordered`), so a `NameError` is raised.  The function therefore never
returns normally, and the scored list `unordered` is dead code. -/
def order_domain_values (g : Geometry) (d : Domains) (var : Variable)
    (asg : Assignment) : Except PyError (List Word) :=
  if (neighbors g var).any (fun n => assigned asg n) then .error .runtimeError
  else if (d var).any (fun val => (neighbors g var).any (fun n =>
      match g.overlaps var n with
      | some op => val.length ≤ op.1 || (d n).any (fun v => v.length ≤ op.2)
      | none => false)) then .error .indexError
  else .error .nameError

/-- The scored triples built by `select_unassigned_variable` (generate.py
lines 321-331): `(var, len(domains[var]), degree)` for every unassigned
variable, in store order. -/
def selectCandidates (g : Geometry) (d : Domains) (asg : Assignment) :
    List (Variable × Nat × Nat) :=
  (g.vars.filter (fun v => !assigned asg v)).map
    (fun v => (v, (d v).length, (neighbors g v).length))

/-- Comparison used by the first Python `sorted` call (ascending degree). -/
def degreeLe (a b : Variable × Nat × Nat) : Prop := a.2.2 ≤ b.2.2

/-- Comparison used by the second Python `sorted` call
(`key=itemgetter(1), reverse=True`): descending remaining-domain size. -/
def remGe (a b : Variable × Nat × Nat) : Prop := b.2.1 ≤ a.2.1

instance : DecidableRel degreeLe := fun a b => Nat.decLe a.2.2 b.2.2

instance : DecidableRel remGe := fun a b => Nat.decLe b.2.1 a.2.1

instance : IsTotal (Variable × Nat × Nat) degreeLe := ⟨fun _ _ => Nat.le_total _ _⟩

instance : IsTrans (Variable × Nat × Nat) degreeLe := ⟨fun _ _ _ => Nat.le_trans⟩

instance : IsTotal (Variable × Nat × Nat) remGe := ⟨fun _ _ => (Nat.le_total _ _).symm⟩

instance : IsTrans (Variable × Nat × Nat) remGe := ⟨fun _ _ _ h1 h2 => Nat.le_trans h2 h1⟩

/-- `select_unassigned_variable` (generate.py lines 309-336): build the
scored triples, stably sort ascending by degree, then stably sort descending
by remaining-domain size, and return the variable of the LAST element -- the
minimum remaining-domain size, with ties broken by maximum degree thanks to
stability.  Python's `sorted` is a stable sort; it is embedded as
`List.insertionSort`, which is also stable and agrees with every stable sort
on total preorders.  `sortList[-1]` raises `IndexError` on an empty list;
the embedding returns `none` in that case (unreachable from `solve`, whose
search only calls this with at least one unassigned variable). -/
def select_unassigned_variable (g : Geometry) (d : Domains) (asg : Assignment) :
    Option Variable :=
  let sortList := (selectCandidates g d asg).insertionSort degreeLe
  let sortList2 := sortList.insertionSort remGe
  sortList2.getLast?.map (fun t => t.1)

/-- The `for val in self.domains[var]` loop of `backtrack` (generate.py lines
358-368): try each candidate in turn; extend the assignment (Python's
`assignment.copy()` followed by `new_assignment[var] = val`, an insertion of
a fresh key), test `consistent`, and recurse through `recur`; the first
non-`None` recursive result is returned.  `recur` returns `none` when ITS
fuel runs out (never happens for the wrapper's fuel), `some none` for the
Python `None`, `some (some a)` for a found assignment. -/
def tryVals (g : Geometry) (recur : Assignment → Option (Option Assignment))
    (asg : Assignment) (var : Variable) : List Word → Option (Option Assignment)
  | [] => some none
  | val :: rest =>
    let new_assignment := asg ++ [(var, val)]
    if consistent g new_assignment then
      match recur new_assignment with
      | none => none
      | some (some result) => some (some result)
      | some none => tryVals g recur asg var rest
    else
      tryVals g recur asg var rest

/-- `backtrack` (generate.py lines 338-369), with fuel: if the assignment is
complete, return it; otherwise pick an unassigned variable and try its
candidates.  `some none` is Python's `None` (failure), `none` is fuel
exhaustion (never happens for the wrapper's fuel).  When every variable is
assigned but the assignment is not complete the source's
`select_unassigned_variable` would raise `IndexError` on `sortList[-1]`;
that state is unreachable from `solve` and maps to `some none`. -/
def backtrack_fuel (g : Geometry) (d : Domains) : Nat → Assignment →
    Option (Option Assignment)
  | 0, _ => none
  | fuel + 1, asg =>
    if assignment_complete g asg then some (some asg)
    else
      match select_unassigned_variable g d asg with
      | none => some none
      | some var => tryVals g (backtrack_fuel g d fuel) asg var (d var)

/-- Number of variables not yet assigned: the `backtrack` recursion depth. -/
def unassignedCount (g : Geometry) (asg : Assignment) : Nat :=
  (g.vars.filter (fun v => !assigned asg v)).length

/-- `backtrack` (generate.py lines 338-369).  The wrapper supplies fuel
`unassignedCount + 1`, which is proved sufficient, so the `getD` default is
never used. -/
def backtrack (g : Geometry) (d : Domains) (asg : Assignment) : Option Assignment :=
  (backtrack_fuel g d (unassignedCount g asg + 1) asg).getD none

/-- The initial Domain Store (generate.py lines 14-17): every variable's
domain is the full vocabulary. -/
def initialDomains (vocab : List Word) : Domains := fun _ => vocab

/-- `solve` (generate.py lines 89-95): enforce node consistency, run `ac3`
(whose boolean result the source IGNORES -- only the mutated domains are
kept), then backtrack from the empty assignment.  `none` is Python's `None`,
i.e. `NoSolution`. -/
def solve (g : Geometry) (vocab : List Word) : Option Assignment :=
  let d1 := enforce_node_consistency g (initialDomains vocab)
  let d2 := (ac3 g d1 none).2
  backtrack g d2 []

/-! ### Concrete geometries and stores used as test inputs -/

/-- A horizontal slot of length 3 starting at cell (0,0). -/
def slotA : Variable := ⟨0, 0, 3, Direction.across⟩

/-- A vertical slot of length 3 starting at cell (0,1). -/
def slotB : Variable := ⟨0, 1, 3, Direction.down⟩

/-- A vertical slot of length 3 starting at cell (0,2). -/
def slotC : Variable := ⟨0, 2, 3, Direction.down⟩

/-- A one-slot geometry with no overlaps. -/
def geo1 : Geometry := ⟨[slotA], fun _ _ => none⟩

/-- Two crossing slots: position 1 of `slotA` meets position 0 of `slotB`
(the satisfiable scenario of spec §8). -/
def geo2 : Geometry :=
  ⟨[slotA, slotB], fun x y =>
    if x = slotA ∧ y = slotB then some (1, 0)
    else if x = slotB ∧ y = slotA then some (0, 1)
    else none⟩

/-- Three slots: `slotB` and `slotC` both cross `slotA` (at positions 1
and 2 of `slotA` respectively), so `slotA` has two neighbors. -/
def geo3 : Geometry :=
  ⟨[slotA, slotB, slotC], fun x y =>
    if x = slotA ∧ y = slotB then some (1, 0)
    else if x = slotB ∧ y = slotA then some (0, 1)
    else if x = slotA ∧ y = slotC then some (2, 0)
    else if x = slotC ∧ y = slotA then some (0, 2)
    else none⟩

/-- Domain store on `geo3` for which revising `slotA` against `slotB`
removes `"dog"` (no word of `slotB` starts with its letter 1 `'o'`) but
keeps `"cat"`. -/
def domC7 : Domains := fun v =>
  if v = slotA then ["cat".toList, "dog".toList]
  else if v = slotB then ["ant".toList]
  else if v = slotC then ["top".toList]
  else []

/-- Domain store on `geo2` used to exercise `revise` directly. -/
def domC3 : Domains := fun v =>
  if v = slotA then ["cat".toList, "dog".toList]
  else if v = slotB then ["ant".toList]
  else []

/-! ### Helper lemmas: membership in filtered lists -/

theorem contains_filter (l : List Word) (q : Word → Bool) (w : Word) (hw : w ∈ l) :
    (l.filter q).contains w = q w := by
  by_cases h : q w = true
  · rw [h]
    exact List.elem_iff.mpr (List.mem_filter.mpr ⟨hw, h⟩)
  · rw [Bool.not_eq_true] at h
    rw [h]
    refine Bool.eq_false_iff.mpr (fun hc => ?_)
    have := (List.mem_filter.mp (List.elem_iff.mp hc)).2
    rw [h] at this
    exact Bool.false_ne_true this

theorem filter_not_contains_filter (l : List Word) (q : Word → Bool) :
    l.filter (fun w => !(l.filter q).contains w) = l.filter (fun w => !q w) := by
  apply List.filter_congr
  intro w hw
  rw [contains_filter l q w hw]

/-! ### Helper lemmas: node consistency -/

theorem enforce_node_consistency_apply (g : Geometry) (d : Domains) (v : Variable) :
    enforce_node_consistency g d v =
      if v ∈ g.vars then (d v).filter (fun w => w.length == v.length) else d v := by
  unfold enforce_node_consistency
  have main : ∀ (l : List Variable) (d : Domains),
      l.foldl
        (fun acc var =>
          let to_remove := (acc var).filter (fun w => w.length != var.length)
          fun v => if v = var then (acc v).filter (fun w => !to_remove.contains w) else acc v)
        d v =
      if v ∈ l then (d v).filter (fun w => w.length == v.length) else d v := by
    intro l
    induction l with
    | nil => intro d; simp
    | cons a l ih =>
      intro d
      rw [List.foldl_cons, ih]
      have hstep : (if v = a then
            (d v).filter (fun w => !((d a).filter (fun w => w.length != a.length)).contains w)
          else d v) =
          if v = a then (d v).filter (fun w => w.length == v.length) else d v := by
        by_cases hva : v = a
        · subst hva
          rw [if_pos rfl, if_pos rfl, filter_not_contains_filter]
          apply List.filter_congr
          intro w _
          simp [bne]
        · rw [if_neg hva, if_neg hva]
      rw [hstep]
      by_cases hva : v = a
      · subst hva
        rw [if_pos rfl, if_pos (List.mem_cons_self v l)]
        by_cases hvl : v ∈ l
        · rw [if_pos hvl, List.filter_filter]
          apply List.filter_congr
          intro w _
          exact Bool.and_self _
        · rw [if_neg hvl]
      · rw [if_neg hva]
        by_cases hvl : v ∈ l
        · rw [if_pos hvl, if_pos (List.mem_cons_of_mem a hvl)]
        · rw [if_neg hvl, if_neg (fun hc => (List.mem_cons.mp hc).elim hva hvl)]
  exact main g.vars d

theorem enforce_node_consistency_idem (g : Geometry) (d : Domains) :
    enforce_node_consistency g (enforce_node_consistency g d) =
      enforce_node_consistency g d := by
  funext v
  rw [enforce_node_consistency_apply, enforce_node_consistency_apply]
  by_cases hv : v ∈ g.vars
  · rw [if_pos hv, if_pos hv, List.filter_filter]
    apply List.filter_congr
    intro w _
    exact Bool.and_self _
  · rw [if_neg hv, if_neg hv]

/-! ### Helper lemmas: revise -/

theorem compatibleCount_ne_zero_iff (d : Domains) (y : Variable) (op : Nat × Nat) (p : Word) :
    compatibleCount d y op p ≠ 0 ↔
      ∃ q ∈ d y, q ≠ p ∧ charAt p op.1 = charAt q op.2 := by
  unfold compatibleCount
  rw [← Nat.pos_iff_ne_zero, List.countP_pos_iff]
  constructor
  · rintro ⟨q, hq, hpq⟩
    simp only [Bool.and_eq_true, bne_iff_ne, beq_iff_eq] at hpq
    exact ⟨q, hq, fun h => hpq.1 h.symm, hpq.2⟩
  · rintro ⟨q, hq, hqp, hc⟩
    refine ⟨q, hq, ?_⟩
    simp only [Bool.and_eq_true, bne_iff_ne, beq_iff_eq]
    exact ⟨fun h => hqp h.symm, hc⟩

theorem revise_of_overlaps_none (g : Geometry) (d : Domains) (x y : Variable)
    (h : g.overlaps x y = none) : revise g d x y = (false, d) := by
  unfold revise
  rw [h]

theorem revise_snd_apply (g : Geometry) (d : Domains) (x y : Variable) (op : Nat × Nat)
    (h : g.overlaps x y = some op) (v : Variable) :
    (revise g d x y).2 v =
      if v = x then (d x).filter (fun p => compatibleCount d y op p != 0) else d v := by
  unfold revise
  rw [h]
  dsimp only
  by_cases he : ((d x).filter (fun p => compatibleCount d y op p == 0)).isEmpty = true
  · rw [if_pos he]
    have hall := List.filter_eq_nil_iff.mp (List.isEmpty_iff.mp he)
    by_cases hv : v = x
    · subst hv
      rw [if_pos rfl]
      refine (List.filter_eq_self.mpr (fun w hw => ?_)).symm
      have := hall w hw
      simpa [bne] using this
    · rw [if_neg hv]
  · rw [if_neg he]
    dsimp only
    by_cases hv : v = x
    · subst hv
      rw [if_pos rfl, if_pos rfl]
      apply List.filter_congr
      intro w hw
      rw [contains_filter _ _ w hw]
      simp [bne]
    · rw [if_neg hv, if_neg hv]

theorem revise_fst_iff (g : Geometry) (d : Domains) (x y : Variable) (op : Nat × Nat)
    (h : g.overlaps x y = some op) :
    (revise g d x y).1 = true ↔ ∃ p ∈ d x, compatibleCount d y op p = 0 := by
  unfold revise
  rw [h]
  dsimp only
  by_cases he : ((d x).filter (fun p => compatibleCount d y op p == 0)).isEmpty = true
  · rw [if_pos he]
    have hall := List.filter_eq_nil_iff.mp (List.isEmpty_iff.mp he)
    simp only [Bool.false_eq_true, false_iff]
    rintro ⟨p, hp, hc⟩
    exact (hall p hp) (by simpa using hc)
  · rw [if_neg he]
    simp only [true_iff]
    rw [List.isEmpty_iff] at he
    rcases List.exists_mem_of_ne_nil _ he with ⟨p, hp⟩
    rcases List.mem_filter.mp hp with ⟨hpd, hpc⟩
    exact ⟨p, hpd, by simpa using hpc⟩

theorem revise_snd_sublist (g : Geometry) (d : Domains) (x y v : Variable) :
    ((revise g d x y).2 v).Sublist (d v) := by
  cases hov : g.overlaps x y with
  | none => rw [revise_of_overlaps_none g d x y hov]
  | some op =>
    rw [revise_snd_apply g d x y op hov v]
    by_cases hv : v = x
    · subst hv
      rw [if_pos rfl]
      exact List.filter_sublist _
    · rw [if_neg hv]

theorem revise_true_length_lt (g : Geometry) (d : Domains) (x y : Variable)
    (h : (revise g d x y).1 = true) :
    ((revise g d x y).2 x).length < (d x).length := by
  cases hov : g.overlaps x y with
  | none =>
    rw [revise_of_overlaps_none g d x y hov] at h
    exact absurd h (by simp)
  | some op =>
    rcases (revise_fst_iff g d x y op hov).mp h with ⟨p, hp, hc⟩
    rw [revise_snd_apply g d x y op hov x, if_pos rfl]
    exact List.length_filter_lt_length_iff_exists.mpr ⟨p, hp, by simpa using hc⟩

/-! ### Helper lemmas: the working set of `ac3` -/

theorem mem_addArc {arcs : List (Variable × Variable)} {a b : Variable × Variable} :
    b ∈ addArc arcs a ↔ b ∈ arcs ∨ b = a := by
  unfold addArc
  by_cases h : a ∈ arcs
  · rw [if_pos h]
    exact ⟨Or.inl, fun hb => hb.elim id (fun hba => hba ▸ h)⟩
  · rw [if_neg h]
    rw [List.mem_cons]
    tauto

theorem length_addArc_le (arcs : List (Variable × Variable)) (a : Variable × Variable) :
    (addArc arcs a).length ≤ arcs.length + 1 := by
  unfold addArc
  by_cases h : a ∈ arcs
  · rw [if_pos h]; omega
  · rw [if_neg h]; simp

theorem mem_enqueueNeighbors {g : Geometry} {x y : Variable}
    {rest : List (Variable × Variable)} {a : Variable × Variable} :
    a ∈ enqueueNeighbors g x y rest ↔
      a ∈ rest ∨ ∃ n, n ∈ neighbors g x ∧ n ≠ y ∧ (a = (n, x) ∨ a = (x, n)) := by
  unfold enqueueNeighbors
  have main : ∀ (l : List Variable) (acc : List (Variable × Variable)),
      a ∈ l.foldl (fun acc n => if n = y then acc else addArc (addArc acc (n, x)) (x, n)) acc ↔
        a ∈ acc ∨ ∃ n, n ∈ l ∧ n ≠ y ∧ (a = (n, x) ∨ a = (x, n)) := by
    intro l
    induction l with
    | nil => intro acc; simp
    | cons m l ih =>
      intro acc
      rw [List.foldl_cons, ih]
      by_cases hm : m = y
      · rw [if_pos hm]
        constructor
        · rintro (h | ⟨n, hn, hny, hor⟩)
          · exact Or.inl h
          · exact Or.inr ⟨n, List.mem_cons_of_mem m hn, hny, hor⟩
        · rintro (h | ⟨n, hn, hny, hor⟩)
          · exact Or.inl h
          · rcases List.mem_cons.mp hn with rfl | hn
            · exact absurd hm hny
            · exact Or.inr ⟨n, hn, hny, hor⟩
      · rw [if_neg hm]
        rw [show a ∈ addArc (addArc acc (m, x)) (x, m) ↔
              a ∈ acc ∨ a = (m, x) ∨ a = (x, m) by
            rw [mem_addArc, mem_addArc]; tauto]
        constructor
        · rintro ((h | hor) | ⟨n, hn, hny, hor⟩)
          · exact Or.inl h
          · exact Or.inr ⟨m, List.mem_cons_self m l, hm, hor⟩
          · exact Or.inr ⟨n, List.mem_cons_of_mem m hn, hny, hor⟩
        · rintro (h | ⟨n, hn, hny, hor⟩)
          · exact Or.inl (Or.inl h)
          · rcases List.mem_cons.mp hn with rfl | hn
            · exact Or.inl (Or.inr hor)
            · exact Or.inr ⟨n, hn, hny, hor⟩
  exact main (neighbors g x) rest

theorem length_enqueueNeighbors_le (g : Geometry) (x y : Variable)
    (rest : List (Variable × Variable)) :
    (enqueueNeighbors g x y rest).length ≤ rest.length + 2 * (neighbors g x).length := by
  unfold enqueueNeighbors
  have main : ∀ (l : List Variable) (acc : List (Variable × Variable)),
      (l.foldl (fun acc n => if n = y then acc else addArc (addArc acc (n, x)) (x, n))
        acc).length ≤ acc.length + 2 * l.length := by
    intro l
    induction l with
    | nil => intro acc; simp
    | cons m l ih =>
      intro acc
      rw [List.foldl_cons]
      by_cases hm : m = y
      · rw [if_pos hm]
        have := ih acc
        simp only [List.length_cons]
        omega
      · rw [if_neg hm]
        have h1 := ih (addArc (addArc acc (m, x)) (x, m))
        have h2 := length_addArc_le (addArc acc (m, x)) (x, m)
        have h3 := length_addArc_le acc (m, x)
        simp only [List.length_cons]
        omega
  exact main (neighbors g x) rest

theorem neighbors_subset (g : Geometry) (x : Variable) :
    ∀ n ∈ neighbors g x, n ∈ g.vars := by
  intro n hn
  exact List.mem_of_mem_filter hn

theorem neighbors_ne (g : Geometry) (x : Variable) :
    ∀ n ∈ neighbors g x, n ≠ x := by
  intro n hn
  have := List.of_mem_filter hn
  simp only [Bool.and_eq_true, bne_iff_ne] at this
  exact this.1

theorem length_neighbors_le (g : Geometry) (x : Variable) :
    (neighbors g x).length ≤ g.vars.length :=
  List.length_filter_le _ _

theorem mem_allArcs {g : Geometry} {a : Variable × Variable} :
    a ∈ allArcs g ↔ a.1 ∈ g.vars ∧ a.2 ∈ g.vars ∧ a.2 ≠ a.1 := by
  unfold allArcs
  rw [List.mem_flatten]
  constructor
  · rintro ⟨l, hl, hal⟩
    rcases List.mem_map.mp hl with ⟨x, hx, rfl⟩
    rcases List.mem_map.mp hal with ⟨y, hy, rfl⟩
    have hy' := List.mem_of_mem_filter hy
    have hne := List.of_mem_filter hy
    simp only [bne_iff_ne] at hne
    exact ⟨hx, hy', hne⟩
  · rintro ⟨h1, h2, h3⟩
    refine ⟨(g.vars.filter (fun y => y != a.1)).map (fun y => (a.1, y)),
      List.mem_map.mpr ⟨a.1, h1, rfl⟩, ?_⟩
    refine List.mem_map.mpr ⟨a.2, List.mem_filter.mpr ⟨h2, by simpa using h3⟩, ?_⟩
    rfl

/-! ### Helper lemmas: the termination measure of `ac3` -/

theorem totalSize_le_of_subset (d : Domains) {s s' : Finset Variable} (h : s' ⊆ s) :
    totalSize d s' ≤ totalSize d s :=
  Finset.sum_le_sum_of_subset h

theorem totalSize_lt_of (d d' : Domains) {s s' : Finset Variable} {x : Variable}
    (hsub : s' ⊆ s) (hx : x ∈ s)
    (hle : ∀ v, (d' v).length ≤ (d v).length)
    (hlt : (d' x).length < (d x).length) :
    totalSize d' s' < totalSize d s := by
  unfold totalSize
  by_cases hxs : x ∈ s'
  · calc s'.sum (fun v => (d' v).length)
        < s'.sum (fun v => (d v).length) :=
          Finset.sum_lt_sum (fun i _ => hle i) ⟨x, hxs, hlt⟩
      _ ≤ s.sum (fun v => (d v).length) := Finset.sum_le_sum_of_subset hsub
  · have h1 : s'.sum (fun v => (d' v).length) ≤ s'.sum (fun v => (d v).length) :=
      Finset.sum_le_sum (fun i _ => hle i)
    have h2 : s' ⊆ s.erase x :=
      fun v hv => Finset.mem_erase.mpr ⟨fun he => hxs (he ▸ hv), hsub hv⟩
    have h3 : s'.sum (fun v => (d v).length) ≤ (s.erase x).sum (fun v => (d v).length) :=
      Finset.sum_le_sum_of_subset h2
    have h4 : (s.erase x).sum (fun v => (d v).length) + (d x).length =
        s.sum (fun v => (d v).length) :=
      Finset.sum_erase_add s _ hx
    omega

theorem vSet_cons_rest_subset (g : Geometry) (x y : Variable)
    (rest : List (Variable × Variable)) :
    vSet g rest ⊆ vSet g ((x, y) :: rest) := by
  intro v hv
  unfold vSet at hv ⊢
  rcases Finset.mem_union.mp hv with h | h
  · exact Finset.mem_union_left _ h
  · refine Finset.mem_union_right _ ?_
    rw [List.mem_toFinset] at h ⊢
    exact List.mem_cons_of_mem _ h

theorem x_mem_vSet_cons (g : Geometry) (x y : Variable)
    (rest : List (Variable × Variable)) :
    x ∈ vSet g ((x, y) :: rest) := by
  unfold vSet
  refine Finset.mem_union_right _ ?_
  rw [List.mem_toFinset]
  exact List.mem_cons_self _ _

theorem vSet_enqueue_subset (g : Geometry) (x y : Variable)
    (rest : List (Variable × Variable)) :
    vSet g (enqueueNeighbors g x y rest) ⊆ vSet g ((x, y) :: rest) := by
  intro v hv
  unfold vSet at hv
  rcases Finset.mem_union.mp hv with h | h
  · exact Finset.mem_union_left _ h
  · rw [List.mem_toFinset, List.mem_map] at h
    rcases h with ⟨a, ha, rfl⟩
    rcases mem_enqueueNeighbors.mp ha with ha | ⟨n, hn, _, hor⟩
    · refine Finset.mem_union_right _ ?_
      rw [List.mem_toFinset]
      exact List.mem_map.mpr ⟨a, List.mem_cons_of_mem _ ha, rfl⟩
    · rcases hor with rfl | rfl
      · exact Finset.mem_union_left _ (List.mem_toFinset.mpr (neighbors_subset g x n hn))
      · exact x_mem_vSet_cons g x y rest

theorem ac3Measure_rest_lt (g : Geometry) (d : Domains) (x y : Variable)
    (rest : List (Variable × Variable)) :
    ac3Measure g d rest < ac3Measure g d ((x, y) :: rest) := by
  unfold ac3Measure
  have h1 : totalSize d (vSet g rest) ≤ totalSize d (vSet g ((x, y) :: rest)) :=
    totalSize_le_of_subset d (vSet_cons_rest_subset g x y rest)
  have h2 : (2 * g.vars.length + 1) * totalSize d (vSet g rest) ≤
      (2 * g.vars.length + 1) * totalSize d (vSet g ((x, y) :: rest)) :=
    Nat.mul_le_mul_left _ h1
  simp only [List.length_cons]
  omega

theorem ac3Measure_enqueue_lt (g : Geometry) (d d' : Domains) (x y : Variable)
    (rest : List (Variable × Variable))
    (hle : ∀ v, (d' v).length ≤ (d v).length)
    (hlt : (d' x).length < (d x).length) :
    ac3Measure g d' (enqueueNeighbors g x y rest) < ac3Measure g d ((x, y) :: rest) := by
  unfold ac3Measure
  have hT : totalSize d' (vSet g (enqueueNeighbors g x y rest)) <
      totalSize d (vSet g ((x, y) :: rest)) :=
    totalSize_lt_of d d' (vSet_enqueue_subset g x y rest) (x_mem_vSet_cons g x y rest) hle hlt
  have hlen : (enqueueNeighbors g x y rest).length ≤ rest.length + 2 * g.vars.length := by
    have h1 := length_enqueueNeighbors_le g x y rest
    have h2 := length_neighbors_le g x
    omega
  have hmul : (2 * g.vars.length + 1) * (totalSize d' (vSet g (enqueueNeighbors g x y rest)) + 1) ≤
      (2 * g.vars.length + 1) * totalSize d (vSet g ((x, y) :: rest)) :=
    Nat.mul_le_mul_left _ hT
  have hdistrib : (2 * g.vars.length + 1) * (totalSize d' (vSet g (enqueueNeighbors g x y rest)) + 1) =
      (2 * g.vars.length + 1) * totalSize d' (vSet g (enqueueNeighbors g x y rest)) +
        (2 * g.vars.length + 1) := by ring
  simp only [List.length_cons]
  omega

/-! ### Helper lemmas: one step of the `ac3` loop -/

theorem ac3_fuel_succ_nil (g : Geometry) (fuel : Nat) (d : Domains) :
    ac3_fuel g (fuel + 1) d [] = some (g.vars.all (fun v => !(d v).isEmpty), d) := rfl

theorem ac3_fuel_succ_cons (g : Geometry) (fuel : Nat) (d : Domains) (x y : Variable)
    (rest : List (Variable × Variable)) :
    ac3_fuel g (fuel + 1) d ((x, y) :: rest) =
      match revise g d x y with
      | (false, _) => ac3_fuel g fuel d rest
      | (true, d') =>
        if (d' x).isEmpty then some (false, d')
        else ac3_fuel g fuel d' (enqueueNeighbors g x y rest) := rfl

theorem revise_false_snd (g : Geometry) (d : Domains) (x y : Variable)
    (hf : (revise g d x y).1 = false) : (revise g d x y).2 = d := by
  unfold revise at *
  cases hov : g.overlaps x y with
  | none => rfl
  | some op =>
    rw [hov] at hf
    dsimp only at hf ⊢
    by_cases he : ((d x).filter (fun p => compatibleCount d y op p == 0)).isEmpty = true
    · rw [if_pos he]
    · rw [if_neg he] at hf
      exact absurd hf (by simp)

theorem revise_snd_length_le (g : Geometry) (d : Domains) (x y v : Variable) :
    ((revise g d x y).2 v).length ≤ (d v).length :=
  (revise_snd_sublist g d x y v).length_le

/-! ### Termination of `ac3`: the wrapper fuel is always sufficient -/

theorem ac3_fuel_isSome_of_measure_lt (g : Geometry) :
    ∀ (fuel : Nat) (d : Domains) (arcs : List (Variable × Variable)),
      ac3Measure g d arcs < fuel → (ac3_fuel g fuel d arcs).isSome = true := by
  intro fuel
  induction fuel with
  | zero => intro d arcs h; exact absurd h (Nat.not_lt_zero _)
  | succ fuel ih =>
    intro d arcs h
    cases arcs with
    | nil => rw [ac3_fuel_succ_nil]; rfl
    | cons a rest =>
      obtain ⟨x, y⟩ := a
      rcases hrev : revise g d x y with ⟨b, dr⟩
      cases b with
      | false =>
        rw [ac3_fuel_succ_cons, hrev]
        have h1 := ac3Measure_rest_lt g d x y rest
        exact ih d rest (by omega)
      | true =>
        rw [ac3_fuel_succ_cons, hrev]
        dsimp only
        by_cases he : (dr x).isEmpty = true
        · rw [if_pos he]; rfl
        · rw [if_neg he]
          have hle : ∀ v, (dr v).length ≤ (d v).length := by
            intro v
            have := revise_snd_length_le g d x y v
            rwa [hrev] at this
          have hlt : (dr x).length < (d x).length := by
            have := revise_true_length_lt g d x y (by rw [hrev])
            rwa [hrev] at this
          have h1 := ac3Measure_enqueue_lt g d dr x y rest hle hlt
          exact ih dr (enqueueNeighbors g x y rest) (by omega)

theorem ac3_fuel_eq_some_ac3 (g : Geometry) (d : Domains)
    (initialArcs : Option (List (Variable × Variable))) :
    ac3_fuel g (ac3Measure g d (initialArcs.getD (allArcs g)) + 1) d
      (initialArcs.getD (allArcs g)) = some (ac3 g d initialArcs) := by
  have h := ac3_fuel_isSome_of_measure_lt g
    (ac3Measure g d (initialArcs.getD (allArcs g)) + 1) d
    (initialArcs.getD (allArcs g)) (Nat.lt_succ_self _)
  obtain ⟨r, hr⟩ := Option.isSome_iff_exists.mp h
  rw [hr]
  show _ = some ((ac3_fuel g (ac3Measure g d (initialArcs.getD (allArcs g)) + 1) d
    (initialArcs.getD (allArcs g))).getD (false, d))
  rw [hr]
  rfl

/-! ### Domains only shrink through `ac3` -/

theorem ac3_fuel_sublist (g : Geometry) :
    ∀ (fuel : Nat) (d : Domains) (arcs : List (Variable × Variable))
      (b : Bool) (d' : Domains),
      ac3_fuel g fuel d arcs = some (b, d') → ∀ v, (d' v).Sublist (d v) := by
  intro fuel
  induction fuel with
  | zero => intro d arcs b d' h; exact absurd h (by simp [ac3_fuel])
  | succ fuel ih =>
    intro d arcs b d' h
    cases arcs with
    | nil =>
      rw [ac3_fuel_succ_nil] at h
      simp only [Option.some.injEq, Prod.mk.injEq] at h
      intro v
      rw [← h.2]
    | cons a rest =>
      obtain ⟨x, y⟩ := a
      rcases hrev : revise g d x y with ⟨rb, dr⟩
      cases rb with
      | false =>
        rw [ac3_fuel_succ_cons, hrev] at h
        exact ih d rest b d' h
      | true =>
        rw [ac3_fuel_succ_cons, hrev] at h
        dsimp only at h
        have hsub : ∀ v, (dr v).Sublist (d v) := by
          intro v
          have := revise_snd_sublist g d x y v
          rwa [hrev] at this
        by_cases he : (dr x).isEmpty = true
        · rw [if_pos he] at h
          simp only [Option.some.injEq, Prod.mk.injEq] at h
          intro v
          rw [← h.2]
          exact hsub v
        · rw [if_neg he] at h
          intro v
          exact (ih dr (enqueueNeighbors g x y rest) b d' h v).trans (hsub v)

/-! ### Extracting facts from `consistent` -/

theorem consistent_mem_pair (g : Geometry) (asg : Assignment)
    (h : consistent g asg = true) {p0 p1 : Variable × Word}
    (h0 : p0 ∈ asg) (h1 : p1 ∈ asg) : consistentPair g p0 p1 = true := by
  unfold consistent at h
  have h2 := (List.all_eq_true.mp h) p0 h0
  exact (List.all_eq_true.mp h2) p1 h1

theorem consistentPair_props (g : Geometry) {p0 p1 : Variable × Word}
    (h : consistentPair g p0 p1 = true) (hne : p0.1 ≠ p1.1) :
    p0.2 ≠ p1.2 ∧ p0.2.length = p0.1.length ∧
      ∀ i j, g.overlaps p0.1 p1.1 = some (i, j) → charAt p0.2 i = charAt p1.2 j := by
  unfold consistentPair at h
  rw [if_neg hne] at h
  by_cases h2 : p0.2 = p1.2
  · rw [if_pos (by simpa using h2)] at h
    exact absurd h (by simp)
  · rw [if_neg (by simpa using h2)] at h
    by_cases h3 : p0.2.length = p0.1.length
    · rw [if_neg (by simpa [bne] using h3)] at h
      refine ⟨h2, h3, ?_⟩
      intro i j hov
      rw [hov] at h
      simpa using h
    · rw [if_pos (by simpa [bne] using h3)] at h
      exact absurd h (by simp)

/-! ### `revise` and `ac3` never remove a word of a valid full assignment -/

theorem revise_keeps (g : Geometry) (asg : Assignment)
    (hcons : consistent g asg = true) (x y : Variable) (wy : Word)
    (hy : (y, wy) ∈ asg) (hxy : x ≠ y) (d : Domains)
    (hInv : ∀ p ∈ asg, p.2 ∈ d p.1) :
    ∀ p ∈ asg, p.2 ∈ (revise g d x y).2 p.1 := by
  intro p hp
  cases hov : g.overlaps x y with
  | none =>
    rw [revise_of_overlaps_none g d x y hov]
    exact hInv p hp
  | some op =>
    rw [revise_snd_apply g d x y op hov p.1]
    by_cases h1 : p.1 = x
    · rw [if_pos h1]
      have hmem : p.2 ∈ d x := h1 ▸ hInv p hp
      refine List.mem_filter.mpr ⟨hmem, ?_⟩
      have hpair : consistentPair g p (y, wy) = true :=
        consistent_mem_pair g asg hcons hp hy
      have hne : p.1 ≠ (y, wy).1 := by
        intro hc
        exact hxy (h1 ▸ hc)
      obtain ⟨hw_ne, _, hagree⟩ := consistentPair_props g hpair hne
      have hcc : compatibleCount d y op p.2 ≠ 0 := by
        rw [compatibleCount_ne_zero_iff]
        refine ⟨wy, hInv (y, wy) hy, fun hc => hw_ne hc.symm, ?_⟩
        have := hagree op.1 op.2 (by rw [h1]; exact hov)
        exact this
      simpa using hcc
    · rw [if_neg h1]
      exact hInv p hp

theorem ac3_fuel_keeps (g : Geometry) (asg : Assignment)
    (hcons : consistent g asg = true)
    (hcover : ∀ v ∈ g.vars, ∃ w, (v, w) ∈ asg) :
    ∀ (fuel : Nat) (d : Domains) (arcs : List (Variable × Variable))
      (b : Bool) (d' : Domains),
      (∀ pr ∈ arcs, pr.1 ∈ g.vars ∧ pr.2 ∈ g.vars ∧ pr.1 ≠ pr.2) →
      (∀ p ∈ asg, p.2 ∈ d p.1) →
      ac3_fuel g fuel d arcs = some (b, d') →
      ∀ p ∈ asg, p.2 ∈ d' p.1 := by
  intro fuel
  induction fuel with
  | zero => intro d arcs b d' _ _ h; exact absurd h (by simp [ac3_fuel])
  | succ fuel ih =>
    intro d arcs b d' harcs hInv h
    cases arcs with
    | nil =>
      rw [ac3_fuel_succ_nil] at h
      simp only [Option.some.injEq, Prod.mk.injEq] at h
      rw [← h.2]
      exact hInv
    | cons a rest =>
      obtain ⟨x, y⟩ := a
      have hhead := harcs (x, y) (List.mem_cons_self _ _)
      obtain ⟨wy, hwy⟩ := hcover y hhead.2.1
      have hInv' : ∀ p ∈ asg, p.2 ∈ (revise g d x y).2 p.1 :=
        revise_keeps g asg hcons x y wy hwy hhead.2.2 d hInv
      rcases hrev : revise g d x y with ⟨rb, dr⟩
      rw [hrev] at hInv'
      cases rb with
      | false =>
        rw [ac3_fuel_succ_cons, hrev] at h
        exact ih d rest b d'
          (fun pr hpr => harcs pr (List.mem_cons_of_mem _ hpr)) hInv h
      | true =>
        rw [ac3_fuel_succ_cons, hrev] at h
        dsimp only at h
        by_cases he : (dr x).isEmpty = true
        · rw [if_pos he] at h
          simp only [Option.some.injEq, Prod.mk.injEq] at h
          rw [← h.2]
          exact hInv'
        · rw [if_neg he] at h
          refine ih dr (enqueueNeighbors g x y rest) b d' ?_ hInv' h
          intro pr hpr
          rcases mem_enqueueNeighbors.mp hpr with hpr | ⟨n, hn, hny, hor⟩
          · exact harcs pr (List.mem_cons_of_mem _ hpr)
          · rcases hor with rfl | rfl
            · exact ⟨neighbors_subset g x n hn, hhead.1, neighbors_ne g x n hn⟩
            · exact ⟨hhead.1, neighbors_subset g x n hn,
                fun hc => neighbors_ne g x n hn hc.symm⟩

/-! ### When `ac3` reports failure some domain is empty -/

theorem ac3_fuel_false_empty (g : Geometry) :
    ∀ (fuel : Nat) (d : Domains) (arcs : List (Variable × Variable)),
      (∀ pr ∈ arcs, pr.1 ∈ g.vars) →
      ∀ d', ac3_fuel g fuel d arcs = some (false, d') →
      ∃ v ∈ g.vars, d' v = [] := by
  intro fuel
  induction fuel with
  | zero => intro d arcs _ d' h; exact absurd h (by simp [ac3_fuel])
  | succ fuel ih =>
    intro d arcs harcs d' h
    cases arcs with
    | nil =>
      rw [ac3_fuel_succ_nil] at h
      simp only [Option.some.injEq, Prod.mk.injEq] at h
      obtain ⟨hall, hd⟩ := h
      rcases List.all_eq_false.mp hall with ⟨v, hv, hvp⟩
      refine ⟨v, hv, ?_⟩
      rw [← hd]
      simpa [List.isEmpty_iff] using hvp
    | cons a rest =>
      obtain ⟨x, y⟩ := a
      rcases hrev : revise g d x y with ⟨rb, dr⟩
      cases rb with
      | false =>
        rw [ac3_fuel_succ_cons, hrev] at h
        exact ih d rest (fun pr hpr => harcs pr (List.mem_cons_of_mem _ hpr)) d' h
      | true =>
        rw [ac3_fuel_succ_cons, hrev] at h
        dsimp only at h
        by_cases he : (dr x).isEmpty = true
        · rw [if_pos he] at h
          simp only [Option.some.injEq, Prod.mk.injEq] at h
          refine ⟨x, (harcs (x, y) (List.mem_cons_self _ _)), ?_⟩
          rw [← h.2]
          exact List.isEmpty_iff.mp he
        · rw [if_neg he] at h
          refine ih dr (enqueueNeighbors g x y rest) ?_ d' h
          intro pr hpr
          rcases mem_enqueueNeighbors.mp hpr with hpr | ⟨n, hn, _, hor⟩
          · exact harcs pr (List.mem_cons_of_mem _ hpr)
          · rcases hor with rfl | rfl
            · exact neighbors_subset g x n hn
            · exact harcs (x, y) (List.mem_cons_self _ _)

/-! ### Helper lemmas: variable selection -/

theorem mem_selectCandidates {g : Geometry} {d : Domains} {asg : Assignment}
    {t : Variable × Nat × Nat} :
    t ∈ selectCandidates g d asg ↔
      t.1 ∈ g.vars ∧ assigned asg t.1 = false ∧
        t = (t.1, (d t.1).length, (neighbors g t.1).length) := by
  unfold selectCandidates
  constructor
  · intro h
    rcases List.mem_map.mp h with ⟨v, hv, rfl⟩
    have h1 := List.mem_of_mem_filter hv
    have h2 := List.of_mem_filter hv
    rw [Bool.not_eq_true'] at h2
    exact ⟨h1, h2, rfl⟩
  · rintro ⟨h1, h2, h3⟩
    refine List.mem_map.mpr ⟨t.1, List.mem_filter.mpr ⟨h1, by simp [h2]⟩, h3.symm⟩

theorem rel_getLast?_of_pairwise {α : Type u_1} {r : α → α → Prop} (hrefl : ∀ a, r a a)
    {l : List α} {t : α} (hp : l.Pairwise r) (ht : l.getLast? = some t) :
    ∀ x ∈ l, r x t := by
  obtain ⟨l', rfl⟩ := List.getLast?_eq_some_iff.mp ht
  intro x hx
  rcases List.mem_append.mp hx with hx | hx
  · exact (List.pairwise_append.mp hp).2.2 x hx t (List.mem_singleton.mpr rfl)
  · rw [List.mem_singleton.mp hx]
    exact hrefl t

theorem select_spec (g : Geometry) (d : Domains) (asg : Assignment)
    (h : ∃ v ∈ g.vars, assigned asg v = false) :
    ∃ var, select_unassigned_variable g d asg = some var ∧ var ∈ g.vars ∧
      assigned asg var = false ∧
      (∀ v ∈ g.vars, assigned asg v = false → (d var).length ≤ (d v).length) ∧
      (∀ v ∈ g.vars, assigned asg v = false → (d v).length = (d var).length →
        (neighbors g v).length ≤ (neighbors g var).length) := by
  obtain ⟨v0, hv0, hv0u⟩ := h
  have hperm1 : ((selectCandidates g d asg).insertionSort degreeLe).Perm
      (selectCandidates g d asg) :=
    List.perm_insertionSort degreeLe _
  have hperm2 :
      (((selectCandidates g d asg).insertionSort degreeLe).insertionSort remGe).Perm
        ((selectCandidates g d asg).insertionSort degreeLe) :=
    List.perm_insertionSort remGe _
  have hperm : (((selectCandidates g d asg).insertionSort degreeLe).insertionSort remGe).Perm
      (selectCandidates g d asg) := hperm2.trans hperm1
  have hC0 : (v0, (d v0).length, (neighbors g v0).length) ∈ selectCandidates g d asg :=
    mem_selectCandidates.mpr ⟨hv0, hv0u, rfl⟩
  have hs2ne : ((selectCandidates g d asg).insertionSort degreeLe).insertionSort remGe ≠ [] := by
    intro hc
    have : selectCandidates g d asg = [] := (hperm.symm.trans (hc ▸ List.Perm.refl _)).eq_nil
    exact List.not_mem_nil _ (this ▸ hC0)
  obtain ⟨t, ht⟩ := Option.isSome_iff_exists.mp (List.getLast?_isSome.mpr hs2ne)
  have htmem : t ∈ ((selectCandidates g d asg).insertionSort degreeLe).insertionSort remGe := by
    obtain ⟨l', hl'⟩ := List.getLast?_eq_some_iff.mp ht
    rw [hl']
    exact List.mem_append.mpr (Or.inr (List.mem_singleton.mpr rfl))
  have htC : t ∈ selectCandidates g d asg := hperm.mem_iff.mp htmem
  obtain ⟨htv, htu, hteq⟩ := mem_selectCandidates.mp htC
  have ht21 : t.2.1 = (d t.1).length := by rw [hteq]
  have ht22 : t.2.2 = (neighbors g t.1).length := by rw [hteq]
  have hsorted2 : (((selectCandidates g d asg).insertionSort degreeLe).insertionSort
      remGe).Pairwise remGe := List.sorted_insertionSort remGe _
  have hmin : ∀ u ∈ ((selectCandidates g d asg).insertionSort degreeLe).insertionSort remGe,
      remGe u t :=
    rel_getLast?_of_pairwise (r := remGe) (fun a => Nat.le_refl _) hsorted2 ht
  -- the block of candidates whose remaining-domain size equals that of `t`
  have hblockpw : ((((selectCandidates g d asg).insertionSort degreeLe).filter
      (fun u => u.2.1 == t.2.1)).Pairwise remGe) := by
    refine List.pairwise_of_forall_mem_list ?_
    intro a ha b hb
    have ha' := List.of_mem_filter ha
    have hb' := List.of_mem_filter hb
    rw [beq_iff_eq] at ha' hb'
    unfold remGe
    rw [ha', hb']
  have hblocksub : (((selectCandidates g d asg).insertionSort degreeLe).filter
        (fun u => u.2.1 == t.2.1)).Sublist
      (((selectCandidates g d asg).insertionSort degreeLe).insertionSort remGe) :=
    List.sublist_insertionSort hblockpw (List.filter_sublist _)
  have hfiltereq : (((selectCandidates g d asg).insertionSort degreeLe).insertionSort
        remGe).filter (fun u => u.2.1 == t.2.1) =
      ((selectCandidates g d asg).insertionSort degreeLe).filter
        (fun u => u.2.1 == t.2.1) := by
    have hsub2 : (((selectCandidates g d asg).insertionSort degreeLe).filter
          (fun u => u.2.1 == t.2.1)).Sublist
        ((((selectCandidates g d asg).insertionSort degreeLe).insertionSort
          remGe).filter (fun u => u.2.1 == t.2.1)) := by
      have h1 := hblocksub.filter (fun u => u.2.1 == t.2.1)
      rwa [List.filter_filter, List.filter_congr
        (fun a _ => Bool.and_self ((fun u : Variable × Nat × Nat => u.2.1 == t.2.1) a))] at h1
    have hlen : ((((selectCandidates g d asg).insertionSort degreeLe).insertionSort
          remGe).filter (fun u => u.2.1 == t.2.1)).length =
        (((selectCandidates g d asg).insertionSort degreeLe).filter
          (fun u => u.2.1 == t.2.1)).length :=
      (hperm2.filter _).length_eq
    exact (hsub2.eq_of_length hlen.symm).symm
  have htlast : ((((selectCandidates g d asg).insertionSort degreeLe).filter
      (fun u => u.2.1 == t.2.1))).getLast? = some t := by
    rw [← hfiltereq]
    obtain ⟨l', hl'⟩ := List.getLast?_eq_some_iff.mp ht
    rw [hl', List.filter_append]
    have : List.filter (fun u => u.2.1 == t.2.1) [t] = [t] := by
      simp
    rw [this]
    exact List.getLast?_concat _
  have hblockpwDeg : ((((selectCandidates g d asg).insertionSort degreeLe).filter
      (fun u => u.2.1 == t.2.1)).Pairwise degreeLe) :=
    List.Pairwise.sublist (List.filter_sublist _) (List.sorted_insertionSort degreeLe _)
  have htie : ∀ u ∈ (((selectCandidates g d asg).insertionSort degreeLe).filter
      (fun u => u.2.1 == t.2.1)), degreeLe u t :=
    rel_getLast?_of_pairwise (r := degreeLe) (fun a => Nat.le_refl _) hblockpwDeg htlast
  refine ⟨t.1, ?_, htv, htu, ?_, ?_⟩
  · show (((selectCandidates g d asg).insertionSort degreeLe).insertionSort
      remGe).getLast?.map (fun t => t.1) = some t.1
    rw [ht]
    rfl
  · intro v hv hvu
    have hvC : (v, (d v).length, (neighbors g v).length) ∈ selectCandidates g d asg :=
      mem_selectCandidates.mpr ⟨hv, hvu, rfl⟩
    have hvs2 := hperm.mem_iff.mpr hvC
    have := hmin _ hvs2
    unfold remGe at this
    dsimp only at this
    rw [ht21] at this
    exact this
  · intro v hv hvu hlen
    have hvC : (v, (d v).length, (neighbors g v).length) ∈ selectCandidates g d asg :=
      mem_selectCandidates.mpr ⟨hv, hvu, rfl⟩
    have hvs1 := hperm1.mem_iff.mpr hvC
    have hvblock : (v, (d v).length, (neighbors g v).length) ∈
        (((selectCandidates g d asg).insertionSort degreeLe).filter
          (fun u => u.2.1 == t.2.1)) := by
      refine List.mem_filter.mpr ⟨hvs1, ?_⟩
      show ((d v).length == t.2.1) = true
      rw [ht21, beq_iff_eq]
      exact hlen
    have := htie _ hvblock
    unfold degreeLe at this
    dsimp only at this
    rw [ht22] at this
    exact this

theorem select_some_facts {g : Geometry} {d : Domains} {asg : Assignment} {var : Variable}
    (h : select_unassigned_variable g d asg = some var) :
    var ∈ g.vars ∧ assigned asg var = false := by
  unfold select_unassigned_variable at h
  rcases Option.map_eq_some'.mp h with ⟨t, ht, rfl⟩
  have htmem : t ∈ ((selectCandidates g d asg).insertionSort degreeLe).insertionSort remGe := by
    obtain ⟨l', hl'⟩ := List.getLast?_eq_some_iff.mp ht
    rw [hl']
    exact List.mem_append.mpr (Or.inr (List.mem_singleton.mpr rfl))
  have htC : t ∈ selectCandidates g d asg :=
    (((List.perm_insertionSort remGe _).trans
      (List.perm_insertionSort degreeLe _))).mem_iff.mp htmem
  obtain ⟨h1, h2, _⟩ := mem_selectCandidates.mp htC
  exact ⟨h1, h2⟩

/-! ### Helper lemmas: assignments and `backtrack` bookkeeping -/

theorem assigned_append_single (asg : Assignment) (var : Variable) (val : Word)
    (v : Variable) :
    assigned (asg ++ [(var, val)]) v = (assigned asg v || var == v) := by
  unfold assigned
  rw [List.any_append]
  simp

theorem assigned_eq_false_iff (asg : Assignment) (v : Variable) :
    assigned asg v = false ↔ ∀ p ∈ asg, p.1 ≠ v := by
  unfold assigned
  rw [List.any_eq_false]
  constructor
  · intro h p hp
    have := h p hp
    simpa using this
  · intro h p hp
    simpa using h p hp

theorem length_filter_lt_of_pointwise {α : Type u_1} (l : List α) (p q : α → Bool)
    (himp : ∀ a, q a = true → p a = true) (x : α) (hx : x ∈ l)
    (hpx : p x = true) (hqx : q x = false) :
    (l.filter q).length < (l.filter p).length := by
  induction l with
  | nil => exact absurd hx (List.not_mem_nil x)
  | cons a l ih =>
    by_cases hqa : q a = true
    · have hpa := himp a hqa
      rw [List.filter_cons_of_pos hqa, List.filter_cons_of_pos hpa]
      simp only [List.length_cons]
      have hax : x ∈ l := by
        rcases List.mem_cons.mp hx with rfl | hx'
        · rw [hqa] at hqx; exact absurd hqx (by simp)
        · exact hx'
      exact Nat.succ_lt_succ (ih hax)
    · rw [List.filter_cons_of_neg (by simpa using hqa)]
      have hmono : (l.filter q).length ≤ (l.filter p).length := by
        rw [← List.countP_eq_length_filter, ← List.countP_eq_length_filter]
        exact List.countP_mono_left (fun a _ ha => himp a ha)
      by_cases hpa : p a = true
      · rw [List.filter_cons_of_pos hpa]
        simp only [List.length_cons]
        rcases List.mem_cons.mp hx with rfl | hx'
        · omega
        · have := ih hx'
          omega
      · rw [List.filter_cons_of_neg (by simpa using hpa)]
        rcases List.mem_cons.mp hx with rfl | hx'
        · rw [hpx] at hpa; exact absurd rfl hpa
        · exact ih hx'

theorem unassignedCount_append_lt (g : Geometry) (asg : Assignment) (var : Variable)
    (val : Word) (hvar : var ∈ g.vars) (hun : assigned asg var = false) :
    unassignedCount g (asg ++ [(var, val)]) < unassignedCount g asg := by
  unfold unassignedCount
  refine length_filter_lt_of_pointwise g.vars _ _ ?_ var hvar ?_ ?_
  · intro a ha
    rw [Bool.not_eq_true', assigned_append_single] at ha
    rw [Bool.not_eq_true']
    exact (Bool.or_eq_false_iff.mp ha).1
  · rw [Bool.not_eq_true']
    exact hun
  · rw [Bool.not_eq_false', assigned_append_single]
    simp

theorem backtrack_fuel_succ (g : Geometry) (d : Domains) (fuel : Nat) (asg : Assignment) :
    backtrack_fuel g d (fuel + 1) asg =
      if assignment_complete g asg then some (some asg)
      else
        match select_unassigned_variable g d asg with
        | none => some none
        | some var => tryVals g (backtrack_fuel g d fuel) asg var (d var) := rfl

theorem tryVals_cons (g : Geometry) (recur : Assignment → Option (Option Assignment))
    (asg : Assignment) (var : Variable) (val : Word) (rest : List Word) :
    tryVals g recur asg var (val :: rest) =
      if consistent g (asg ++ [(var, val)]) then
        match recur (asg ++ [(var, val)]) with
        | none => none
        | some (some result) => some (some result)
        | some none => tryVals g recur asg var rest
      else tryVals g recur asg var rest := rfl

theorem tryVals_isSome (g : Geometry) (recur : Assignment → Option (Option Assignment))
    (asg : Assignment) (var : Variable)
    (hrec : ∀ val, (recur (asg ++ [(var, val)])).isSome = true) :
    ∀ vals, (tryVals g recur asg var vals).isSome = true := by
  intro vals
  induction vals with
  | nil => rfl
  | cons val rest ih =>
    rw [tryVals_cons]
    by_cases hc : consistent g (asg ++ [(var, val)]) = true
    · rw [if_pos hc]
      obtain ⟨r, hr⟩ := Option.isSome_iff_exists.mp (hrec val)
      rw [hr]
      cases r with
      | none => exact ih
      | some a => rfl
    · rw [if_neg hc]
      exact ih

theorem backtrack_fuel_isSome (g : Geometry) (d : Domains) :
    ∀ (fuel : Nat) (asg : Assignment), unassignedCount g asg < fuel →
      (backtrack_fuel g d fuel asg).isSome = true := by
  intro fuel
  induction fuel with
  | zero => intro asg h; exact absurd h (Nat.not_lt_zero _)
  | succ fuel ih =>
    intro asg h
    rw [backtrack_fuel_succ]
    by_cases hc : assignment_complete g asg = true
    · rw [if_pos hc]; rfl
    · rw [if_neg hc]
      cases hsel : select_unassigned_variable g d asg with
      | none => rfl
      | some var =>
        obtain ⟨hvv, hvu⟩ := select_some_facts hsel
        refine tryVals_isSome g _ asg var ?_ (d var)
        intro val
        refine ih _ ?_
        have := unassignedCount_append_lt g asg var val hvv hvu
        omega

theorem backtrack_fuel_eq_some_backtrack (g : Geometry) (d : Domains) (asg : Assignment) :
    backtrack_fuel g d (unassignedCount g asg + 1) asg = some (backtrack g d asg) := by
  obtain ⟨r, hr⟩ := Option.isSome_iff_exists.mp
    (backtrack_fuel_isSome g d (unassignedCount g asg + 1) asg (Nat.lt_succ_self _))
  rw [hr]
  unfold backtrack
  rw [hr]
  rfl

theorem consistent_of_subset (g : Geometry) {asg asg' : Assignment}
    (hsub : ∀ p ∈ asg', p ∈ asg) (h : consistent g asg = true) :
    consistent g asg' = true := by
  unfold consistent at *
  rw [List.all_eq_true]
  intro p0 hp0
  rw [List.all_eq_true]
  intro p1 hp1
  exact List.all_eq_true.mp (List.all_eq_true.mp h p0 (hsub p0 hp0)) p1 (hsub p1 hp1)

theorem keys_append_nodup (asg : Assignment) (var : Variable) (val : Word)
    (hnd : (asg.map Prod.fst).Nodup) (hun : assigned asg var = false) :
    (((asg ++ [(var, val)]).map Prod.fst)).Nodup := by
  rw [List.map_append]
  refine List.Nodup.append hnd (List.nodup_singleton _) ?_
  intro v hv hv2
  rcases List.mem_map.mp hv with ⟨p, hp, rfl⟩
  have hv2' : p.1 = var := by simpa using hv2
  exact (assigned_eq_false_iff asg var).mp hun p hp hv2'

theorem not_mem_keys_of_unassigned (asg : Assignment) (var : Variable)
    (hun : assigned asg var = false) : var ∉ asg.map Prod.fst := by
  intro hc
  rcases List.mem_map.mp hc with ⟨p, hp, hpv⟩
  exact (assigned_eq_false_iff asg var).mp hun p hp hpv

theorem mem_keys_of_assigned {asg : Assignment} {v : Variable}
    (h : assigned asg v = true) : v ∈ asg.map Prod.fst := by
  unfold assigned at h
  rcases List.any_eq_true.mp h with ⟨p, hp, hpv⟩
  rw [beq_iff_eq] at hpv
  exact List.mem_map.mpr ⟨p, hp, hpv⟩

theorem assigned_of_mem_keys {asg : Assignment} {v : Variable}
    (h : v ∈ asg.map Prod.fst) : assigned asg v = true := by
  unfold assigned
  rcases List.mem_map.mp h with ⟨p, hp, hpv⟩
  exact List.any_eq_true.mpr ⟨p, hp, by simp [hpv]⟩

theorem tryVals_sound (g : Geometry) (d : Domains)
    (recur : Assignment → Option (Option Assignment)) (asg : Assignment) (var : Variable)
    (hvv : var ∈ g.vars) (hvu : assigned asg var = false)
    (hrec : ∀ new a, recur new = some (some a) →
      (consistent g new = true → consistent g a = true) ∧
      assignment_complete g a = true ∧
      (∀ p ∈ a, p ∈ new ∨ (p.1 ∈ g.vars ∧ p.2 ∈ d p.1)) ∧
      ((new.map Prod.fst).Nodup → (a.map Prod.fst).Nodup)) :
    ∀ (vals : List Word) (a : Assignment), (∀ val ∈ vals, val ∈ d var) →
      tryVals g recur asg var vals = some (some a) →
      (consistent g asg = true → consistent g a = true) ∧
      assignment_complete g a = true ∧
      (∀ p ∈ a, p ∈ asg ∨ (p.1 ∈ g.vars ∧ p.2 ∈ d p.1)) ∧
      ((asg.map Prod.fst).Nodup → (a.map Prod.fst).Nodup) := by
  intro vals
  induction vals with
  | nil =>
    intro a _ h
    exact absurd h (by simp [tryVals])
  | cons val rest ih =>
    intro a hmem h
    rw [tryVals_cons] at h
    by_cases hc : consistent g (asg ++ [(var, val)]) = true
    · rw [if_pos hc] at h
      cases hr : recur (asg ++ [(var, val)]) with
      | none => rw [hr] at h; exact absurd h (by simp)
      | some o =>
        rw [hr] at h
        cases o with
        | none =>
          exact ih a (fun w hw => hmem w (List.mem_cons_of_mem _ hw)) h
        | some r =>
          have hra : r = a := by simpa using h
          subst hra
          obtain ⟨hcons', hcomp', hent', hnd'⟩ := hrec _ r hr
          refine ⟨fun _ => hcons' hc, hcomp', ?_, ?_⟩
          · intro p hp
            rcases hent' p hp with hp' | hp'
            · rcases List.mem_append.mp hp' with hp'' | hp''
              · exact Or.inl hp''
              · have : p = (var, val) := List.mem_singleton.mp hp''
                refine Or.inr ?_
                rw [this]
                exact ⟨hvv, hmem val (List.mem_cons_self _ _)⟩
            · exact Or.inr hp'
          · intro hnd
            exact hnd' (keys_append_nodup asg var val hnd hvu)
    · rw [if_neg hc] at h
      exact ih a (fun w hw => hmem w (List.mem_cons_of_mem _ hw)) h

theorem backtrack_fuel_sound (g : Geometry) (d : Domains) :
    ∀ (fuel : Nat) (asg a : Assignment),
      backtrack_fuel g d fuel asg = some (some a) →
      (consistent g asg = true → consistent g a = true) ∧
      assignment_complete g a = true ∧
      (∀ p ∈ a, p ∈ asg ∨ (p.1 ∈ g.vars ∧ p.2 ∈ d p.1)) ∧
      ((asg.map Prod.fst).Nodup → (a.map Prod.fst).Nodup) := by
  intro fuel
  induction fuel with
  | zero => intro asg a h; exact absurd h (by simp [backtrack_fuel])
  | succ fuel ih =>
    intro asg a h
    rw [backtrack_fuel_succ] at h
    by_cases hc : assignment_complete g asg = true
    · rw [if_pos hc] at h
      have : asg = a := by simpa using h
      subst this
      exact ⟨id, hc, fun p hp => Or.inl hp, id⟩
    · rw [if_neg hc] at h
      cases hsel : select_unassigned_variable g d asg with
      | none => rw [hsel] at h; exact absurd h (by simp)
      | some var =>
        rw [hsel] at h
        obtain ⟨hvv, hvu⟩ := select_some_facts hsel
        exact tryVals_sound g d _ asg var hvv hvu (fun new a' hr => ih new a' hr)
          (d var) a (fun _ hw => hw) h

theorem keys_perm_of_complete (g : Geometry) (asg : Assignment)
    (hnd : (asg.map Prod.fst).Nodup) (hsub : ∀ v ∈ asg.map Prod.fst, v ∈ g.vars)
    (hlen : g.vars.length = asg.length) :
    (asg.map Prod.fst).Perm g.vars := by
  refine (hnd.subperm hsub).perm_of_length_le ?_
  rw [List.length_map]
  omega

theorem tryVals_none (g : Geometry)
    (recur : Assignment → Option (Option Assignment)) (asg : Assignment) (var : Variable) :
    ∀ (vals : List Word),
      (∀ val ∈ vals, ∀ o, recur (asg ++ [(var, val)]) = some o → o = none) →
      ∀ o, tryVals g recur asg var vals = some o → o = none := by
  intro vals
  induction vals with
  | nil =>
    intro _ o h
    have : some (none : Option Assignment) = some o := h.symm ▸ rfl
    simpa using this.symm
  | cons val rest ih =>
    intro hrec o h
    rw [tryVals_cons] at h
    by_cases hc : consistent g (asg ++ [(var, val)]) = true
    · rw [if_pos hc] at h
      cases hr : recur (asg ++ [(var, val)]) with
      | none => rw [hr] at h; exact absurd h (by simp)
      | some o' =>
        rw [hr] at h
        cases o' with
        | none => exact ih (fun w hw => hrec w (List.mem_cons_of_mem _ hw)) o h
        | some r =>
          have := hrec val (List.mem_cons_self _ _) (some r) hr
          exact absurd this (by simp)
    · rw [if_neg hc] at h
      exact ih (fun w hw => hrec w (List.mem_cons_of_mem _ hw)) o h

theorem backtrack_fuel_none_of_empty (g : Geometry) (d : Domains)
    (v0 : Variable) (hv0 : v0 ∈ g.vars) (hemp : d v0 = []) :
    ∀ (fuel : Nat) (asg : Assignment),
      (asg.map Prod.fst).Nodup → (∀ p ∈ asg, p.1 ∈ g.vars) →
      (∀ p ∈ asg, p.2 ∈ d p.1) →
      ∀ o, backtrack_fuel g d fuel asg = some o → o = none := by
  intro fuel
  induction fuel with
  | zero => intro asg _ _ _ o h; exact absurd h (by simp [backtrack_fuel])
  | succ fuel ih =>
    intro asg hnd hkeys hInv o h
    rw [backtrack_fuel_succ] at h
    by_cases hc : assignment_complete g asg = true
    · exfalso
      have hlen : g.vars.length = asg.length := by
        unfold assignment_complete at hc
        simpa using hc
      have hperm : (asg.map Prod.fst).Perm g.vars :=
        keys_perm_of_complete g asg hnd
          (fun v hv => by
            rcases List.mem_map.mp hv with ⟨p, hp, rfl⟩
            exact hkeys p hp) hlen
      have hv0k : v0 ∈ asg.map Prod.fst := hperm.mem_iff.mpr hv0
      rcases List.mem_map.mp hv0k with ⟨p, hp, hpv⟩
      have := hInv p hp
      rw [hpv, hemp] at this
      exact List.not_mem_nil _ this
    · rw [if_neg hc] at h
      cases hsel : select_unassigned_variable g d asg with
      | none => rw [hsel] at h; simpa using h.symm
      | some var =>
        rw [hsel] at h
        obtain ⟨hvv, hvu⟩ := select_some_facts hsel
        refine tryVals_none g _ asg var (d var) ?_ o h
        intro val hval o' h'
        refine ih (asg ++ [(var, val)]) (keys_append_nodup asg var val hnd hvu) ?_ ?_ o' h'
        · intro p hp
          rcases List.mem_append.mp hp with hp' | hp'
          · exact hkeys p hp'
          · rw [List.mem_singleton.mp hp']
            exact hvv
        · intro p hp
          rcases List.mem_append.mp hp with hp' | hp'
          · exact hInv p hp'
          · rw [List.mem_singleton.mp hp']
            exact hval

theorem exists_unassigned_of_incomplete (g : Geometry) (asg asg' : Assignment)
    (hg : g.vars.Nodup)
    (hkeys : (asg.map Prod.fst).Perm g.vars)
    (hsub : ∀ p ∈ asg', p ∈ asg) (hnd : (asg'.map Prod.fst).Nodup)
    (hc : ¬ assignment_complete g asg' = true) :
    ∃ v ∈ g.vars, assigned asg' v = false := by
  by_contra hcon
  push_neg at hcon
  apply hc
  have hall : ∀ v ∈ g.vars, v ∈ asg'.map Prod.fst := by
    intro v hv
    have h1 := hcon v hv
    rw [ne_eq, Bool.not_eq_false] at h1
    exact mem_keys_of_assigned h1
  have hsub' : ∀ v ∈ asg'.map Prod.fst, v ∈ g.vars := by
    intro v hv
    rcases List.mem_map.mp hv with ⟨p, hp, rfl⟩
    exact hkeys.mem_iff.mp (List.mem_map.mpr ⟨p, hsub p hp, rfl⟩)
  have hperm : (asg'.map Prod.fst).Perm g.vars :=
    (hnd.subperm hsub').antisymm (hg.subperm hall)
  unfold assignment_complete
  have h2 := hperm.length_eq
  rw [List.length_map] at h2
  simp [h2]

theorem backtrack_fuel_complete (g : Geometry) (d : Domains) (asg : Assignment)
    (hg : g.vars.Nodup)
    (hkeys : (asg.map Prod.fst).Perm g.vars)
    (hcons : consistent g asg = true)
    (hInv : ∀ p ∈ asg, p.2 ∈ d p.1) :
    ∀ (n fuel : Nat) (asg' : Assignment), unassignedCount g asg' = n → n < fuel →
      (∀ p ∈ asg', p ∈ asg) → (asg'.map Prod.fst).Nodup →
      ∃ a, backtrack_fuel g d fuel asg' = some (some a) := by
  intro n
  induction n using Nat.strong_induction_on with
  | _ n ih =>
    intro fuel asg' hcount hfuel hsub hnd
    cases fuel with
    | zero => omega
    | succ fuel =>
      rw [backtrack_fuel_succ]
      by_cases hc : assignment_complete g asg' = true
      · rw [if_pos hc]
        exact ⟨asg', rfl⟩
      · rw [if_neg hc]
        have hex := exists_unassigned_of_incomplete g asg asg' hg hkeys hsub hnd hc
        obtain ⟨var, hsel, hvv, hvu, _, _⟩ := select_spec g d asg' hex
        rw [hsel]
        have hvk : var ∈ asg.map Prod.fst := hkeys.mem_iff.mpr hvv
        rcases List.mem_map.mp hvk with ⟨pw, hpw, hpwv⟩
        have hpair : (var, pw.2) ∈ asg := by
          rw [← hpwv]
          exact hpw
        have hwx : pw.2 ∈ d var := by
          have := hInv pw hpw
          rwa [hpwv] at this
        have hloop : ∀ vals : List Word, pw.2 ∈ vals →
            ∃ a, tryVals g (backtrack_fuel g d fuel) asg' var vals = some (some a) := by
          intro vals
          induction vals with
          | nil => intro hmem; exact absurd hmem (List.not_mem_nil _)
          | cons val rest ihv =>
            intro hmem
            rw [tryVals_cons]
            have hsubnew : ∀ val', val' = pw.2 →
                ∀ p ∈ asg' ++ [(var, val')], p ∈ asg := by
              intro val' hval' p hp
              rcases List.mem_append.mp hp with h | h
              · exact hsub p h
              · rw [List.mem_singleton.mp h, hval']
                exact hpair
            by_cases hcc : consistent g (asg' ++ [(var, val)]) = true
            · rw [if_pos hcc]
              have hcountlt : unassignedCount g (asg' ++ [(var, val)]) < n := by
                rw [← hcount]
                exact unassignedCount_append_lt g asg' var val hvv hvu
              cases hr : backtrack_fuel g d fuel (asg' ++ [(var, val)]) with
              | none =>
                exfalso
                have hS := backtrack_fuel_isSome g d fuel (asg' ++ [(var, val)]) (by omega)
                rw [hr] at hS
                simp at hS
              | some o =>
                cases o with
                | some r => exact ⟨r, rfl⟩
                | none =>
                  by_cases hval : val = pw.2
                  · exfalso
                    obtain ⟨a, ha⟩ := ih _ hcountlt fuel (asg' ++ [(var, val)]) rfl
                      (by omega) (hsubnew val hval)
                      (keys_append_nodup asg' var val hnd hvu)
                    rw [hr] at ha
                    simp at ha
                  · have hmem' : pw.2 ∈ rest := by
                      rcases List.mem_cons.mp hmem with h | h
                      · exact absurd h.symm hval
                      · exact h
                    exact ihv hmem'
            · rw [if_neg hcc]
              by_cases hval : val = pw.2
              · exact absurd (consistent_of_subset g (hsubnew val hval) hcons) hcc
              · have hmem' : pw.2 ∈ rest := by
                  rcases List.mem_cons.mp hmem with h | h
                  · exact absurd h.symm hval
                  · exact h
                exact ihv hmem'
        exact hloop (d var) hwx

/-! ### Properties of `solve` -/

theorem solve_some_props (g : Geometry) (vocab : List Word) (a : Assignment)
    (h : solve g vocab = some a) :
    (a.map Prod.fst).Perm g.vars ∧ consistent g a = true ∧
    (∀ p0 ∈ a, ∀ p1 ∈ a, p0.1 ≠ p1.1 → p0.2 ≠ p1.2) ∧
    (∀ p ∈ a, p.2.length = p.1.length) ∧
    (∀ p0 ∈ a, ∀ p1 ∈ a, p0.1 ≠ p1.1 → ∀ i j,
      g.overlaps p0.1 p1.1 = some (i, j) → charAt p0.2 i = charAt p1.2 j) := by
  have hbt : backtrack g
      ((ac3 g (enforce_node_consistency g (initialDomains vocab)) none).2) [] = some a := h
  have hb2 : backtrack_fuel g
      ((ac3 g (enforce_node_consistency g (initialDomains vocab)) none).2)
      (unassignedCount g [] + 1) [] = some (some a) := by
    rw [backtrack_fuel_eq_some_backtrack, hbt]
  obtain ⟨hcons', hcomp, hent, hnd⟩ := backtrack_fuel_sound g _ _ [] a hb2
  have hconsa : consistent g a = true := hcons' rfl
  have hnda : (a.map Prod.fst).Nodup := hnd (by simp)
  have henta : ∀ p ∈ a, p.1 ∈ g.vars ∧
      p.2 ∈ (ac3 g (enforce_node_consistency g (initialDomains vocab)) none).2 p.1 :=
    fun p hp => (hent p hp).elim (fun hc => absurd hc (List.not_mem_nil p)) id
  have hld : ∀ v,
      ((ac3 g (enforce_node_consistency g (initialDomains vocab)) none).2 v).Sublist
        (enforce_node_consistency g (initialDomains vocab) v) := by
    intro v
    exact ac3_fuel_sublist g _ _ _
      (ac3 g (enforce_node_consistency g (initialDomains vocab)) none).1
      (ac3 g (enforce_node_consistency g (initialDomains vocab)) none).2
      (ac3_fuel_eq_some_ac3 g _ none) v
  have hlen : ∀ p ∈ a, p.2.length = p.1.length := by
    intro p hp
    have h1 := (henta p hp).2
    have h2 : p.2 ∈ enforce_node_consistency g (initialDomains vocab) p.1 :=
      (hld p.1).subset h1
    rw [enforce_node_consistency_apply, if_pos (henta p hp).1] at h2
    have := List.of_mem_filter h2
    simpa using this
  have hlena : g.vars.length = a.length := by
    unfold assignment_complete at hcomp
    simpa using hcomp
  have hperm := keys_perm_of_complete g a hnda
    (fun v hv => by
      rcases List.mem_map.mp hv with ⟨p, hp, rfl⟩
      exact (henta p hp).1) hlena
  refine ⟨hperm, hconsa, ?_, hlen, ?_⟩
  · intro p0 hp0 p1 hp1 hne
    exact (consistentPair_props g (consistent_mem_pair g a hconsa hp0 hp1) hne).1
  · intro p0 hp0 p1 hp1 hne i j hov
    exact (consistentPair_props g (consistent_mem_pair g a hconsa hp0 hp1) hne).2.2 i j hov

theorem solve_none_of_ac3_false (g : Geometry) (vocab : List Word)
    (h : (ac3 g (enforce_node_consistency g (initialDomains vocab)) none).1 = false) :
    solve g vocab = none := by
  have hpair : ac3 g (enforce_node_consistency g (initialDomains vocab)) none =
      (false, (ac3 g (enforce_node_consistency g (initialDomains vocab)) none).2) := by
    rw [← h]
  have hfe := ac3_fuel_eq_some_ac3 g (enforce_node_consistency g (initialDomains vocab)) none
  rw [hpair] at hfe
  have harcs : ∀ pr ∈ ((none : Option (List (Variable × Variable))).getD (allArcs g)),
      pr.1 ∈ g.vars := by
    intro pr hpr
    exact (mem_allArcs.mp hpr).1
  obtain ⟨v, hv, hveq⟩ := ac3_fuel_false_empty g _ _ _ harcs _ hfe
  have h2 := backtrack_fuel_eq_some_backtrack g
    ((ac3 g (enforce_node_consistency g (initialDomains vocab)) none).2) []
  have h3 := backtrack_fuel_none_of_empty g
    ((ac3 g (enforce_node_consistency g (initialDomains vocab)) none).2) v hv hveq
    _ [] (by simp) (by simp) (by simp) _ h2
  show backtrack g
    ((ac3 g (enforce_node_consistency g (initialDomains vocab)) none).2) [] = none
  exact h3

theorem solve_isSome_of_valid (g : Geometry) (vocab : List Word) (asg : Assignment)
    (hg : g.vars.Nodup)
    (hperm : (asg.map Prod.fst).Perm g.vars)
    (hvoc : ∀ p ∈ asg, p.2 ∈ vocab)
    (hlen : ∀ p ∈ asg, p.2.length = p.1.length)
    (hcons : consistent g asg = true) :
    ∃ a, solve g vocab = some a := by
  have hmemvars : ∀ p ∈ asg, p.1 ∈ g.vars := by
    intro p hp
    exact hperm.mem_iff.mp (List.mem_map.mpr ⟨p, hp, rfl⟩)
  have hInv1 : ∀ p ∈ asg, p.2 ∈ enforce_node_consistency g (initialDomains vocab) p.1 := by
    intro p hp
    rw [enforce_node_consistency_apply, if_pos (hmemvars p hp)]
    refine List.mem_filter.mpr ⟨hvoc p hp, ?_⟩
    simp [hlen p hp]
  have hcover : ∀ v ∈ g.vars, ∃ w, (v, w) ∈ asg := by
    intro v hv
    rcases List.mem_map.mp (hperm.mem_iff.mpr hv) with ⟨p, hp, hpv⟩
    exact ⟨p.2, by rw [← hpv]; exact hp⟩
  have harcs : ∀ pr ∈ ((none : Option (List (Variable × Variable))).getD (allArcs g)),
      pr.1 ∈ g.vars ∧ pr.2 ∈ g.vars ∧ pr.1 ≠ pr.2 := by
    intro pr hpr
    obtain ⟨h1, h2, h3⟩ := mem_allArcs.mp hpr
    exact ⟨h1, h2, fun hc => h3 hc.symm⟩
  have hInv2 := ac3_fuel_keeps g asg hcons hcover _
    (enforce_node_consistency g (initialDomains vocab)) _
    (ac3 g (enforce_node_consistency g (initialDomains vocab)) none).1
    (ac3 g (enforce_node_consistency g (initialDomains vocab)) none).2
    harcs hInv1
    (ac3_fuel_eq_some_ac3 g (enforce_node_consistency g (initialDomains vocab)) none)
  obtain ⟨a, ha⟩ := backtrack_fuel_complete g
    ((ac3 g (enforce_node_consistency g (initialDomains vocab)) none).2) asg hg hperm
    hcons hInv2 (unassignedCount g []) (unassignedCount g [] + 1) []
    rfl (Nat.lt_succ_self _) (by simp) (by simp)
  refine ⟨a, ?_⟩
  show backtrack g
    ((ac3 g (enforce_node_consistency g (initialDomains vocab)) none).2) [] = some a
  have h2 := backtrack_fuel_eq_some_backtrack g
    ((ac3 g (enforce_node_consistency g (initialDomains vocab)) none).2) []
  rw [ha] at h2
  exact (by simpa using h2.symm)

/-! ### The claims -/

/-- C1: For every geometry and vocabulary, if `solve` returns an assignment
(not `NoSolution`), that assignment is complete — its keys are exactly the
geometry's slots, one word per slot — and satisfies `isConsistent`
(`consistent`): all assigned words are pairwise distinct, each assigned
word's length equals its slot's length, and every pair of assigned slots
with a defined overlap agrees at the overlap offsets. -/
theorem C1_solve_returns_complete_consistent (g : Geometry) (vocab : List Word)
    (a : Assignment) (h : solve g vocab = some a) :
    (a.map Prod.fst).Perm g.vars ∧ consistent g a = true ∧
    (∀ p0 ∈ a, ∀ p1 ∈ a, p0.1 ≠ p1.1 → p0.2 ≠ p1.2) ∧
    (∀ p ∈ a, p.2.length = p.1.length) ∧
    (∀ p0 ∈ a, ∀ p1 ∈ a, p0.1 ≠ p1.1 → ∀ i j,
      g.overlaps p0.1 p1.1 = some (i, j) → charAt p0.2 i = charAt p1.2 j) :=
  solve_some_props g vocab a h

/-- Witness for C1 at the two-crossing-slots geometry: `solve` returns the
assignment slotB ↦ "ant", slotA ↦ "cat", whose keys are a permutation of the
slots and which passes `consistent`. -/
theorem C1_witness :
    ([(slotB, "ant".toList), (slotA, "cat".toList)].map Prod.fst).Perm geo2.vars ∧
    consistent geo2 [(slotB, "ant".toList), (slotA, "cat".toList)] = true := by
  have h := C1_solve_returns_complete_consistent geo2
    ["cat".toList, "ant".toList, "tar".toList]
    [(slotB, "ant".toList), (slotA, "cat".toList)] (by decide)
  exact ⟨h.1, h.2.1⟩

/-- C2 counterexample: on a single slot of length 3 with vocabulary
{"dogs"}, the assignment slotA ↦ "dogs" is complete, drawn from the
original (pre-propagation) domain, and satisfies `isConsistent` — the
code's `consistent` evaluates its checks only on ordered pairs of DISTINCT
assigned slots, so a single wrong-length word passes — yet `solve` returns
`NoSolution` (node consistency empties the domain).  So the claim as stated
(`solve = NoSolution` implies no complete consistent assignment exists over
the original domains) is false. -/
theorem C2_counterexample :
    solve geo1 ["dogs".toList] = none ∧
    assignment_complete geo1 [(slotA, "dogs".toList)] = true ∧
    consistent geo1 [(slotA, "dogs".toList)] = true ∧
    "dogs".toList ∈ ["dogs".toList] := by decide

/-- C2 (amended): if a complete assignment over the original domains exists
that satisfies `isConsistent` AND additionally gives every slot a word of
the slot's length (the condition the spec's §3 invariant (b) states but the
code's `consistent` does not enforce for fewer than two slots), then `solve`
does not return `NoSolution`: node consistency and every `revise` keep all
of its words, and the backtracking search finds some assignment. -/
theorem C2_amended_no_solution_sound (g : Geometry) (vocab : List Word)
    (asg : Assignment) (hg : g.vars.Nodup)
    (hperm : (asg.map Prod.fst).Perm g.vars)
    (hvoc : ∀ p ∈ asg, p.2 ∈ vocab)
    (hlen : ∀ p ∈ asg, p.2.length = p.1.length)
    (hcons : consistent g asg = true) :
    solve g vocab ≠ none := by
  obtain ⟨a, ha⟩ := solve_isSome_of_valid g vocab asg hg hperm hvoc hlen hcons
  rw [ha]
  exact Option.some_ne_none a

/-- Witness for the amended C2: one slot, vocabulary {"cat"}, valid
assignment slotA ↦ "cat"; `solve` indeed succeeds. -/
theorem C2_witness : solve geo1 ["cat".toList] ≠ none :=
  C2_amended_no_solution_sound geo1 ["cat".toList] [(slotA, "cat".toList)]
    (by decide) (by decide) (by decide) (by decide) (by decide)

/-- C3: for every pair of slots: with no defined overlap `revise` returns
false and changes nothing; with overlap offsets `(i, j)` (in range for the
words of both domains, so that the Python indexing is defined) a word `p`
is kept in domain(x) iff some `q` in domain(y) differs from `p` and agrees
at the offsets, no other domain changes, and the returned flag is true iff
at least one word was removed. -/
theorem C3_revise_spec (g : Geometry) (d : Domains) (x y : Variable) :
    (g.overlaps x y = none → revise g d x y = (false, d)) ∧
    (∀ i j, g.overlaps x y = some (i, j) →
      (∀ p ∈ d x, i < p.length) → (∀ q ∈ d y, j < q.length) →
      (∀ p, (p ∈ (revise g d x y).2 x ↔
        p ∈ d x ∧ ∃ q ∈ d y, q ≠ p ∧ charAt p i = charAt q j)) ∧
      (∀ v, v ≠ x → (revise g d x y).2 v = d v) ∧
      ((revise g d x y).1 = true ↔
        ∃ p ∈ d x, ¬ ∃ q ∈ d y, q ≠ p ∧ charAt p i = charAt q j)) := by
  refine ⟨revise_of_overlaps_none g d x y, ?_⟩
  intro i j hov _ _
  refine ⟨?_, ?_, ?_⟩
  · intro p
    rw [revise_snd_apply g d x y (i, j) hov x, if_pos rfl]
    constructor
    · intro hp
      have h1 := List.mem_of_mem_filter hp
      have h2 := List.of_mem_filter hp
      have h3 : compatibleCount d y (i, j) p ≠ 0 := by simpa using h2
      exact ⟨h1, (compatibleCount_ne_zero_iff d y (i, j) p).mp h3⟩
    · rintro ⟨h1, h2⟩
      refine List.mem_filter.mpr ⟨h1, ?_⟩
      have h3 : compatibleCount d y (i, j) p ≠ 0 :=
        (compatibleCount_ne_zero_iff d y (i, j) p).mpr h2
      simpa using h3
  · intro v hv
    rw [revise_snd_apply g d x y (i, j) hov v, if_neg hv]
  · rw [revise_fst_iff g d x y (i, j) hov]
    constructor
    · rintro ⟨p, hp, hc⟩
      refine ⟨p, hp, ?_⟩
      intro hex
      exact (compatibleCount_ne_zero_iff d y (i, j) p).mpr hex hc
    · rintro ⟨p, hp, hnex⟩
      refine ⟨p, hp, ?_⟩
      by_contra hc
      exact hnex ((compatibleCount_ne_zero_iff d y (i, j) p).mp hc)

/-- Witness for C3 on geo2 with domains slotA ↦ {"cat", "dog"},
slotB ↦ {"ant"}: "dog" is removed (no word of slotB starts with 'o'),
"cat" is kept, slotB's domain is untouched, and the flag is true. -/
theorem C3_witness :
    "dog".toList ∉ (revise geo2 domC3 slotA slotB).2 slotA ∧
    "cat".toList ∈ (revise geo2 domC3 slotA slotB).2 slotA ∧
    (revise geo2 domC3 slotA slotB).2 slotB = domC3 slotB ∧
    (revise geo2 domC3 slotA slotB).1 = true := by
  have h := (C3_revise_spec geo2 domC3 slotA slotB).2 1 0 (by decide) (by decide) (by decide)
  refine ⟨?_, ?_, ?_, ?_⟩
  · intro hc
    exact absurd ((h.1 ("dog".toList)).mp hc) (by decide)
  · exact (h.1 ("cat".toList)).mpr (by decide)
  · exact h.2.1 slotB (by decide)
  · exact h.2.2.mpr (by decide)

/-- C4: when the `ac3` pass run by `solve` reports unsatisfiability (it
returns `False` because a domain became empty), `solve` returns
`NoSolution`.  The source actually IGNORES `ac3`'s boolean result, but the
behavior still holds: the emptied domain makes every branch of the
subsequent backtracking search fail. -/
theorem C4_solve_none_of_ac3_unsat (g : Geometry) (vocab : List Word)
    (h : (ac3 g (enforce_node_consistency g (initialDomains vocab)) none).1 = false) :
    solve g vocab = none :=
  solve_none_of_ac3_false g vocab h

/-- Witness for C4: one slot of length 3 and vocabulary {"to"}; node
consistency empties the domain, `ac3` reports false, and `solve` returns
`NoSolution`. -/
theorem C4_witness : solve geo1 ["to".toList] = none :=
  C4_solve_none_of_ac3_unsat geo1 ["to".toList] (by decide)

/-- C5: the claim says the search tries candidate words in the order
produced by `order_domain_values`; in the source, `backtrack` iterates
`self.domains[var]` directly, and `order_domain_values` cannot produce an
ordering on ANY input: it always raises — RuntimeError when a neighbor is
assigned (the loop removes from the set it iterates), IndexError on an
out-of-range overlap offset, and otherwise NameError at
`sorted(unsorted, ...)`, since the scored list is named `unordered`. -/
theorem C5_order_domain_values_always_raises (g : Geometry) (d : Domains)
    (var : Variable) (asg : Assignment) :
    ∃ e, order_domain_values g d var asg = Except.error e := by
  unfold order_domain_values
  by_cases h1 : (neighbors g var).any (fun n => assigned asg n) = true
  · rw [if_pos h1]
    exact ⟨_, rfl⟩
  · rw [if_neg h1]
    by_cases h2 : ((d var).any (fun val => (neighbors g var).any (fun n =>
        match g.overlaps var n with
        | some op => val.length ≤ op.1 || (d n).any (fun v => v.length ≤ op.2)
        | none => false))) = true
    · rw [if_pos h2]
      exact ⟨_, rfl⟩
    · rw [if_neg h2]
      exact ⟨_, rfl⟩

/-- C6: whenever at least one slot is unassigned,
`select_unassigned_variable` returns an unassigned slot with minimal
remaining-domain size, and of maximal degree among those minimal ones
(stability of the two Python sorts gives the degree tie-break). -/
theorem C6_select_mrv_then_degree (g : Geometry) (d : Domains) (asg : Assignment)
    (h : ∃ v ∈ g.vars, assigned asg v = false) :
    ∃ var, select_unassigned_variable g d asg = some var ∧ var ∈ g.vars ∧
      assigned asg var = false ∧
      (∀ v ∈ g.vars, assigned asg v = false → (d var).length ≤ (d v).length) ∧
      (∀ v ∈ g.vars, assigned asg v = false → (d v).length = (d var).length →
        (neighbors g v).length ≤ (neighbors g var).length) :=
  select_spec g d asg h

/-- Witness for C6 on geo2 with domains slotA ↦ {"cat", "dog"},
slotB ↦ {"ant"}: slotB has the smaller domain and is selected. -/
theorem C6_witness :
    select_unassigned_variable geo2 domC3 [] = some slotB ∧
    slotB ∈ geo2.vars ∧ assigned [] slotB = false := by
  obtain ⟨var, h1, h2, h3, _, _⟩ := C6_select_mrv_then_degree geo2 domC3 [] (by decide)
  have hsel : select_unassigned_variable geo2 domC3 [] = some slotB := by decide
  have hv : var = slotB := by
    have := h1.symm.trans hsel
    simpa using this
  subst hv
  exact ⟨hsel, h2, h3⟩

/-- C7 counterexample: on geo3, revising slotA against slotB shrinks
slotA's domain without emptying it, and the arcs then added to the working
set include (slotA, slotC) — an arc with slotA FIRST, which is not of the
form (n, slotA) for any neighbor n.  The claim that exactly the arcs
(n, x) and no others are added is therefore false: the source also adds
(x, n) for every neighbor n ≠ y (generate.py line 214). -/
theorem C7_counterexample :
    (revise geo3 domC7 slotA slotB).1 = true ∧
    ((revise geo3 domC7 slotA slotB).2 slotA).isEmpty = false ∧
    (slotA, slotC) ∈ enqueueNeighbors geo3 slotA slotB [] ∧
    (slotA, slotC) ∉ ([] : List (Variable × Variable)) ∧
    (∀ n ∈ neighbors geo3 slotA, (slotA, slotC) ≠ (n, slotA)) := by decide

/-- C7 (amended): during `ac3`, when `revise(x, y)` changes domain(x)
without emptying it, the loop continues on the updated store with working
set `enqueueNeighbors`, whose added arcs are exactly the arcs (n, x) AND
(x, n) for every neighbor n of x other than y, and no other arcs. -/
theorem C7_amended_enqueue_both_directions (g : Geometry) (fuel : Nat)
    (d d' : Domains) (x y : Variable) (rest : List (Variable × Variable))
    (h1 : revise g d x y = (true, d')) (h2 : (d' x).isEmpty = false) :
    ac3_fuel g (fuel + 1) d ((x, y) :: rest) =
      ac3_fuel g fuel d' (enqueueNeighbors g x y rest) ∧
    ∀ a, a ∈ enqueueNeighbors g x y rest ↔
      a ∈ rest ∨ ∃ n, n ∈ neighbors g x ∧ n ≠ y ∧ (a = (n, x) ∨ a = (x, n)) := by
  constructor
  · rw [ac3_fuel_succ_cons, h1]
    simp [h2]
  · intro a
    exact mem_enqueueNeighbors

/-- Witness for the amended C7 at the concrete revision of the C7
counterexample. -/
theorem C7_witness :
    ac3_fuel geo3 1 domC7 [(slotA, slotB)] =
      ac3_fuel geo3 0 ((revise geo3 domC7 slotA slotB).2)
        (enqueueNeighbors geo3 slotA slotB []) ∧
    (slotA, slotC) ∈ enqueueNeighbors geo3 slotA slotB [] := by
  have hf : (revise geo3 domC7 slotA slotB).1 = true := by decide
  have h1 : revise geo3 domC7 slotA slotB =
      (true, (revise geo3 domC7 slotA slotB).2) := by
    rw [← hf]
  have h := C7_amended_enqueue_both_directions geo3 0 domC7
    ((revise geo3 domC7 slotA slotB).2) slotA slotB [] h1 (by decide)
  refine ⟨h.1, (h.2 (slotA, slotC)).mpr ?_⟩
  right
  exact ⟨slotC, by decide, by decide, Or.inr rfl⟩

/-- C8: `enforceNodeConsistency` sets every slot's domain to exactly the
words of the slot's length, removes nothing else, and a second run changes
nothing (idempotence); an empty resulting domain is not an error — the
function is total. -/
theorem C8_enforce_node_consistency_spec (g : Geometry) (d : Domains) (v : Variable)
    (hv : v ∈ g.vars) :
    enforce_node_consistency g d v = (d v).filter (fun w => w.length == v.length) ∧
    enforce_node_consistency g (enforce_node_consistency g d) =
      enforce_node_consistency g d := by
  constructor
  · rw [enforce_node_consistency_apply, if_pos hv]
  · exact enforce_node_consistency_idem g d

/-- Witness for C8: the length-4 word "dogs" is removed from the length-3
slot's domain while "cat" stays, and re-running the enforcement is a
no-op. -/
theorem C8_witness :
    enforce_node_consistency geo1 (initialDomains ["cat".toList, "dogs".toList]) slotA =
      ((initialDomains ["cat".toList, "dogs".toList]) slotA).filter
        (fun w => w.length == slotA.length) ∧
    enforce_node_consistency geo1
        (enforce_node_consistency geo1 (initialDomains ["cat".toList, "dogs".toList])) =
      enforce_node_consistency geo1 (initialDomains ["cat".toList, "dogs".toList]) :=
  C8_enforce_node_consistency_spec geo1
    (initialDomains ["cat".toList, "dogs".toList]) slotA (by decide)

/-- C9: `ac3` terminates for every geometry, store and initial arc set —
the fuel chosen by the wrapper (one more than the measure) always suffices,
so the loop result is `some` and equals `ac3`'s value — and when the loop
runs to an empty working set it returns true iff every slot's domain is
non-empty at that point. -/
theorem C9_ac3_terminates (g : Geometry) (d : Domains)
    (initialArcs : Option (List (Variable × Variable))) :
    (ac3_fuel g (ac3Measure g d (initialArcs.getD (allArcs g)) + 1) d
      (initialArcs.getD (allArcs g)) = some (ac3 g d initialArcs)) ∧
    (∀ (fuel : Nat) (d' : Domains),
      ac3_fuel g (fuel + 1) d' [] =
        some (g.vars.all (fun v => !(d' v).isEmpty), d') ∧
      ((g.vars.all (fun v => !(d' v).isEmpty)) = true ↔ ∀ v ∈ g.vars, d' v ≠ [])) := by
  refine ⟨ac3_fuel_eq_some_ac3 g d initialArcs, ?_⟩
  intro fuel d'
  refine ⟨ac3_fuel_succ_nil g fuel d', ?_⟩
  rw [List.all_eq_true]
  constructor
  · intro h v hv
    have := h v hv
    simpa [List.isEmpty_iff] using this
  · intro h v hv
    simpa [List.isEmpty_iff] using h v hv

/-- C10: `consistent` evaluates its distinctness, length and overlap checks
only on ordered pairs of distinct assigned slots, so any assignment with at
most one entry is consistent regardless of the assigned word — in
particular the word's length is never compared against the slot's
length. -/
theorem C10_consistent_at_most_one (g : Geometry) (asg : Assignment)
    (h : asg.length ≤ 1) : consistent g asg = true := by
  cases asg with
  | nil => rfl
  | cons p rest =>
    cases rest with
    | nil =>
      unfold consistent consistentPair
      simp
    | cons q rest' =>
      simp at h

/-- Witness for C10: a single length-7 word in a length-3 slot is accepted
by `consistent`. -/
theorem C10_witness : consistent geo1 [(slotA, "toolong".toList)] = true :=
  C10_consistent_at_most_one geo1 [(slotA, "toolong".toList)] (by decide)
